import Mathlib

/-!
Verification of the IDA theme builder (`scripts/theme/ida-theme-builder.py`).

Modelling conventions.
Python strings are `List Char` (abbreviated `Str`); Python dicts (insertion
ordered, keys unique) are association lists `List (Str × Str)` acted on by
`listLookup` / `setKey` / `dictInsert`; code that raises returns `Option`;
the warnings printed to stderr by `read_overrides` are modelled as the list
of 1-based line numbers that warned.  The floating point arithmetic of
`colorsys` is modelled exactly over `ℚ`: the conversions use only field
operations, comparisons and `% 1.0`, no transcendental functions, so the
rational semantics is the exact-arithmetic idealisation of the float code.
`Char.toUpper` / `Char.toLower` are precisely the ASCII-range behaviour of
Python `str.upper()` / `str.lower()`, the only range the builder feeds them.
-/

/-- Python `str` model. -/
abbrev Str := List Char

/-- ASCII part of the whitespace set stripped by Python `str.strip()`. -/
def pyIsSpace (c : Char) : Bool :=
  c = ' ' || c = '\t' || c = '\n' || c = '\r' || c = '\x0b' || c = '\x0c'

/-- Python `str.strip()`: drop leading and trailing whitespace. -/
def pyStrip (s : Str) : Str :=
  ((s.dropWhile pyIsSpace).reverse.dropWhile pyIsSpace).reverse

/-- Character class `[0-9A-Fa-f]` of `ColorValidator.HEX_PATTERN`. -/
def isHexDigitChar (c : Char) : Bool :=
  (48 ≤ c.toNat && c.toNat ≤ 57) ||
  (65 ≤ c.toNat && c.toNat ≤ 70) ||
  (97 ≤ c.toNat && c.toNat ≤ 102)

/-- The optional leading `#` of `HEX_PATTERN`: `#?` consumes a leading `#`
when present (backtracking can never succeed otherwise, because `#` is not
in the hex digit class). -/
def dropOptHash (s : Str) : Str :=
  match s with
  | c :: rest => if c = '#' then rest else c :: rest
  | [] => []

/-- `ColorValidator.validate` (source lines 24-49): reject the empty string,
strip surrounding whitespace, match `^#?([0-9A-Fa-f]{6})$` and return the
canonical `#` + uppercased digits; `none` models the raised `ValueError`. -/
def validate (color : Str) : Option Str :=
  if color = [] then none
  else
    let s := pyStrip color
    let t := dropOptHash s
    if t.length = 6 ∧ t.all isHexDigitChar then
      some ('#' :: t.map Char.toUpper)
    else none

/-- `ColorValidator.strip_hash` (source lines 51-54): `color.lstrip('#')`
removes every leading `#`. -/
def strip_hash (color : Str) : Str :=
  color.dropWhile (fun c => c = '#')

/-- `ColorValidator.to_rgba` (source lines 56-59): `strip_hash(color) + alpha`;
the `alpha` parameter defaults to `"FF"` at every call site. -/
def to_rgba (color alpha : Str) : Str :=
  strip_hash color ++ alpha

/-- Shape asserted by claim C9, written from the claim's words: exactly 6 hex
digits optionally preceded by one single leading marker character. -/
def markerHex6 (s : Str) : Bool :=
  (s.length = 6 && s.all isHexDigitChar) ||
  (s.head? = some '#' && ((s.drop 1).length = 6 && (s.drop 1).all isHexDigitChar))

/-- Value of one hex digit, as accepted by Python `int(_, 16)`. -/
def hexVal (c : Char) : Option Nat :=
  if 48 ≤ c.toNat && c.toNat ≤ 57 then some (c.toNat - 48)
  else if 65 ≤ c.toNat && c.toNat ≤ 70 then some (c.toNat - 55)
  else if 97 ≤ c.toNat && c.toNat ≤ 102 then some (c.toNat - 87)
  else none

/-- Python `int(s, 16)` on a plain digit string (the call sites only ever
pass slices of a hash-stripped color; the sign/whitespace/underscore
tolerance of `int` is never exercised there and is not modelled). -/
def parseHexStr (l : Str) : Option Nat :=
  if l = [] then none
  else l.foldlM (fun acc c => (hexVal c).map (fun v => acc * 16 + v)) 0

/-- Python slice `l[i:i+2]`: never raises, may be short. -/
def slice2 (l : Str) (i : Nat) : Str :=
  (l.drop i).take 2

/-- Lowercase hex digit character for a value below 16 (Python `%x`). -/
def hexDigitLower (n : Nat) : Char :=
  Char.ofNat (if n < 10 then 48 + n else 87 + n)

/-- Uppercase hex digit character for a value below 16. -/
def hexDigitUpper (n : Nat) : Char :=
  Char.ofNat (if n < 10 then 48 + n else 55 + n)

/-- Python float `% 1.0` on exact rationals: `q - floor q`, the
representative in `[0, 1)`. -/
def pyMod1 (q : ℚ) : ℚ := q - (Rat.floor q : ℚ)

/-- `colorsys._v` (helper of `hls_to_rgb`), over exact rationals. -/
def vComp (m1 m2 hue : ℚ) : ℚ :=
  let h := pyMod1 hue
  if h < 1/6 then m1 + (m2 - m1) * h * 6
  else if h < 1/2 then m2
  else if h < 2/3 then m1 + (m2 - m1) * (2/3 - h) * 6
  else m1

/-- `colorsys.rgb_to_hls`, over exact rationals. -/
def rgb_to_hls (r g b : ℚ) : ℚ × ℚ × ℚ :=
  let maxc := max r (max g b)
  let minc := min r (min g b)
  let sumc := maxc + minc
  let rangec := maxc - minc
  let l := sumc / 2
  if minc = maxc then (0, l, 0)
  else
    let s := if l ≤ 1/2 then rangec / sumc else rangec / (2 - sumc)
    let rc := (maxc - r) / rangec
    let gc := (maxc - g) / rangec
    let bc := (maxc - b) / rangec
    let h0 := if r = maxc then bc - gc else if g = maxc then 2 + rc - bc else 4 + gc - rc
    (pyMod1 (h0 / 6), l, s)

/-- `colorsys.hls_to_rgb`, over exact rationals. -/
def hls_to_rgb (h l s : ℚ) : ℚ × ℚ × ℚ :=
  if s = 0 then (l, l, l)
  else
    let m2 := if l ≤ 1/2 then l * (1 + s) else l + s - l * s
    let m1 := 2 * l - m2
    (vComp m1 m2 (h + 1/3), vComp m1 m2 h, vComp m1 m2 (h - 1/3))

/-- Python `int()` applied to a float: truncation toward zero, on exact
rationals. -/
def pyInt (q : ℚ) : ℤ :=
  if q < 0 then -(Rat.floor (-q)) else Rat.floor q

/-- Hex digits of `n`, lowercase, most significant first (Python `%x`). -/
def natToHex (n : Nat) : List Char :=
  if h : n < 16 then [hexDigitLower n]
  else natToHex (n / 16) ++ [hexDigitLower (n % 16)]
  termination_by n
  decreasing_by exact Nat.div_lt_self (by omega) (by omega)

/-- Zero-pad to width 2 (Python format width `02`). -/
def pad2 (l : List Char) : List Char :=
  if l.length < 2 then '0' :: l else l

/-- Python `f"{n:02x}"` on an integer: lowercase hex, zero padded to width 2
which includes a leading sign for negative input. -/
def pyHex02 (n : ℤ) : List Char :=
  if n < 0 then '-' :: natToHex (-n).toNat else pad2 (natToHex n.toNat)

/-- `ColorUtils.lighten` (source lines 65-91): strip `#`, parse the three
channel byte slices, convert to HLS, raise lightness clamped at 1.0, convert
back, truncate each channel with `int(...)` and format `#%02x%02x%02x`
(lowercase); `none` models the `ValueError` of `int` on a non-hex slice. -/
def lighten (hex_color : Str) (amount : ℚ) : Option Str :=
  let hex_clean := strip_hash hex_color
  match parseHexStr (slice2 hex_clean 0), parseHexStr (slice2 hex_clean 2),
      parseHexStr (slice2 hex_clean 4) with
  | some r, some g, some b =>
      let hls := rgb_to_hls ((r : ℚ) / 255) ((g : ℚ) / 255) ((b : ℚ) / 255)
      let l2 := min 1 (hls.2.1 + amount)
      let rgb2 := hls_to_rgb hls.1 l2 hls.2.2
      some ('#' :: (pyHex02 (pyInt (rgb2.1 * 255)) ++ pyHex02 (pyInt (rgb2.2.1 * 255)) ++
        pyHex02 (pyInt (rgb2.2.2 * 255))))
  | _, _, _ => none

/-- The channel pipeline named by the amended claim C3: RGB to HLS, lightness
raised by the amount clamped at a maximum of 1.0, back to RGB, each channel
truncated toward zero after scaling by 255. -/
def lightenChannels (r g b : Nat) (amount : ℚ) : ℤ × ℤ × ℤ :=
  let hls := rgb_to_hls ((r : ℚ) / 255) ((g : ℚ) / 255) ((b : ℚ) / 255)
  let l2 := min 1 (hls.2.1 + amount)
  let rgb2 := hls_to_rgb hls.1 l2 hls.2.2
  (pyInt (rgb2.1 * 255), pyInt (rgb2.2.1 * 255), pyInt (rgb2.2.2 * 255))

/-- Clamp an integer into `[0, 255]`. -/
def clamp255 (n : ℤ) : ℤ := max 0 (min 255 n)

/-- Two uppercase hex digits of a byte value (canonical-form digits). -/
def hex2Upper (n : ℤ) : List Char :=
  [hexDigitUpper (n.toNat / 16), hexDigitUpper (n.toNat % 16)]

/-- The behaviour claim C3 asserts for `lighten`, written from the claim's
words: same HLS pipeline, but each channel is rounded to the nearest integer
in `[0, 255]` and the result is re-encoded in canonical form (single leading
marker followed by uppercase hex digits). -/
def lightenClaimed (hex_color : Str) (amount : ℚ) : Option Str :=
  let hex_clean := strip_hash hex_color
  match parseHexStr (slice2 hex_clean 0), parseHexStr (slice2 hex_clean 2),
      parseHexStr (slice2 hex_clean 4) with
  | some r, some g, some b =>
      let hls := rgb_to_hls ((r : ℚ) / 255) ((g : ℚ) / 255) ((b : ℚ) / 255)
      let l2 := min 1 (hls.2.1 + amount)
      let rgb2 := hls_to_rgb hls.1 l2 hls.2.2
      some ('#' :: (hex2Upper (clamp255 (round (rgb2.1 * 255))) ++
        hex2Upper (clamp255 (round (rgb2.2.1 * 255))) ++
        hex2Upper (clamp255 (round (rgb2.2.2 * 255)))))
  | _, _, _ => none

/-- Match `pat` against the front of the list; on success return the rest. -/
def chopOff : Str → Str → Option Str
  | [], s => some s
  | _ :: _, [] => none
  | p :: ps, c :: cs => if p = c then chopOff ps cs else none

/-- Fuel-driven worker for `pyReplace`; the wrapper always supplies enough
fuel (one unit per character of the scanned string), so the fuel-exhausted
arm is unreachable from the wrapper. -/
def pyReplaceF : Nat → Str → Str → Str → Str
  | _, _, _, [] => []
  | 0, _, _, s => s
  | f + 1, pat, rep, c :: s =>
    if pat ≠ [] ∧ (chopOff pat (c :: s)).isSome then
      rep ++ pyReplaceF f pat rep ((chopOff pat (c :: s)).getD [])
    else
      c :: pyReplaceF f pat rep s

/-- Python `str.replace(pat, rep)` (all non-overlapping occurrences, scanned
left to right).  The empty-pattern behaviour of Python (`rep` interleaved
everywhere) is not modelled: the builder only ever replaces the nonempty
literals `IDA_` and `{`+key+`}`. -/
def pyReplace (pat rep s : Str) : Str :=
  pyReplaceF s.length pat rep s

/-- `ThemeBuilder.render_template`, substitution loop only (source lines
244-249): for each data pair in order, replace every occurrence of
`{key}` by the value.  Loading the template file is caller glue. -/
def render_template (template : Str) (data : List (Str × Str)) : Str :=
  data.foldl (fun content kv => pyReplace ('\x7b' :: kv.1 ++ ['\x7d']) kv.2 content) template

/-- Lookup in an association list (Python dict access). -/
def listLookup (k : Str) : List (Str × Str) → Option Str
  | [] => none
  | kv :: rest => if kv.1 = k then some kv.2 else listLookup k rest

/-- Python `key in dict`. -/
def containsKey (k : Str) (m : List (Str × Str)) : Bool :=
  (listLookup k m).isSome

/-- Python `dict[k] = v` when `k` is already a key: value replaced in place,
insertion order unchanged. -/
def setKey (k v : Str) (m : List (Str × Str)) : List (Str × Str) :=
  m.map (fun kv => if kv.1 = k then (k, v) else kv)

/-- Python `dict[k] = v` in general: overwrite if present, else append. -/
def dictInsert (k v : Str) (m : List (Str × Str)) : List (Str × Str) :=
  if containsKey k m then setKey k v m else m ++ [(k, v)]

/-- `key.replace('IDA_', '').lower()` (source lines 161 and 170): every
occurrence of the substring `IDA_` is removed, then the rest lowercased. -/
def semantic_key (key : Str) : Str :=
  (pyReplace (("IDA_").toList) [] key).map Char.toLower

/-- The key formation claim C6 asserts, written from the claim's words: strip
the namespace `IDA_` only when it is a leading portion of the raw key
(case-sensitive, removed once at the start, never from the middle), then
lowercase the remainder. -/
def stripNamespaceOnce (key : Str) : Str :=
  (match chopOff (("IDA_").toList) key with
   | some rest => rest
   | none => key).map Char.toLower

/-- One override entry applied to the working mapping (body of the two loops
of `OverrideManager.apply_overrides`, source lines 160-174): unknown semantic
keys are ignored. -/
def ovStep (res : List (Str × Str)) (kv : Str × Str) : List (Str × Str) :=
  let sk := semantic_key kv.1
  if containsKey sk res then setKey sk kv.2 res else res

/-- `OverrideManager.apply_overrides` (source lines 146-176) with the two
override files already read into mappings: start from a copy of the
defaults, fold the global mapping, then the per-theme mapping. -/
def apply_overrides (defaults globalOv perTheme : List (Str × Str)) : List (Str × Str) :=
  perTheme.foldl ovStep (globalOv.foldl ovStep defaults)

/-- The variant of `apply_overrides` claim C6 describes, with the semantic
key formed by `stripNamespaceOnce` instead of full-substring removal. -/
def ovStepClaimC6 (res : List (Str × Str)) (kv : Str × Str) : List (Str × Str) :=
  let sk := stripNamespaceOnce kv.1
  if containsKey sk res then setKey sk kv.2 res else res

/-- `apply_overrides` as claim C6 describes it. -/
def apply_overrides_claimC6 (defaults globalOv perTheme : List (Str × Str)) :
    List (Str × Str) :=
  perTheme.foldl ovStepClaimC6 (globalOv.foldl ovStepClaimC6 defaults)

/-- Last override value whose formed semantic key is `k` (the value a fold of
`ovStep` leaves for key `k` when it occurs at all). -/
def lastSem (k : Str) : List (Str × Str) → Option Str
  | [] => none
  | kv :: rest =>
    match lastSem k rest with
    | some v => some v
    | none => if semantic_key kv.1 = k then some kv.2 else none

/-- Outcome of one line of an overrides file. -/
inductive LineOut where
  | skip : LineOut
  | entry : Str → Str → LineOut
  | invalid : LineOut
deriving DecidableEq

/-- Per-line behaviour of `OverrideManager.read_overrides` (source lines
118-142): strip; skip blanks, comments, lines without `=`, and lines whose
key or value strips to empty; validate the value, `entry` on success and
`invalid` (a warning) on failure. -/
def processLine (line : Str) : LineOut :=
  let l := pyStrip line
  if l = [] then LineOut.skip
  else if l.head? = some '#' then LineOut.skip
  else if ¬ l.any (fun c => c = '=') then LineOut.skip
  else
    let k := pyStrip (l.takeWhile (fun c => ¬ c = '='))
    let v := pyStrip ((l.dropWhile (fun c => ¬ c = '=')).drop 1)
    if k = [] ∨ v = [] then LineOut.skip
    else
      match validate v with
      | some cv => LineOut.entry k cv
      | none => LineOut.invalid

/-- One iteration of the `read_overrides` loop, on (0-based index, line):
entries are inserted into the mapping, invalid lines append their 1-based
line number to the warning list. -/
def roStep (acc : List (Str × Str) × List Nat) (il : Nat × Str) :
    List (Str × Str) × List Nat :=
  match processLine il.2 with
  | LineOut.skip => acc
  | LineOut.entry k v => (dictInsert k v acc.1, acc.2)
  | LineOut.invalid => (acc.1, acc.2 ++ [il.1 + 1])

/-- `OverrideManager.read_overrides` (source lines 102-144) on the lines of
an existing file: returns the mapping of validated entries (later duplicate
keys overwrite earlier ones) together with the 1-based numbers of lines that
produced a warning. -/
def read_overrides (lines : List Str) : List (Str × Str) × List Nat :=
  lines.enum.foldl roStep ([], [])

/-- The Validate stage of `ThemeBuilder.build` (source lines 348-354): every
merged value is re-validated and replaced by its canonical form; the first
failure aborts the whole build (`sys.exit(1)` modelled as `none`). -/
def validateStage : List (Str × Str) → Option (List (Str × Str))
  | [] => some []
  | kv :: rest =>
    match validate kv.2 with
    | some v2 => (validateStage rest).map (fun r => (kv.1, v2) :: r)
    | none => none

/-- The two full-map semantic artifacts of `ThemeBuilder.build` (source lines
348-364 restricted to `generate_semantic_css` / `generate_semantic_fish`):
validate the merged mapping, then render both templates from it. -/
def buildSemanticArtifacts (merged : List (Str × Str)) (tplCss tplFish : Str) :
    Option (Str × Str) :=
  (validateStage merged).map
    (fun sem => (render_template tplCss sem, render_template tplFish sem))

/-! ### Character-level helper lemmas -/

theorem charOfNat_toNat {n : Nat} (h : n < 55296) : (Char.ofNat n).toNat = n := by
  unfold Char.ofNat
  rw [dif_pos (Or.inl h)]
  rfl

theorem hexCharFacts {e : Char} (h : isHexDigitChar e = true) :
    ∃ v : Nat, v < 16 ∧ hexVal (Char.toUpper e) = some v ∧
      Char.toLower (Char.toUpper e) = hexDigitLower v ∧
      isHexDigitChar (Char.toUpper e) = true ∧ Char.toUpper e ≠ '#' := by
  have h35 : ('#').toNat = 35 := rfl
  have hh : (48 ≤ e.toNat ∧ e.toNat ≤ 57) ∨ (65 ≤ e.toNat ∧ e.toNat ≤ 70) ∨
      (97 ≤ e.toNat ∧ e.toNat ≤ 102) := by
    unfold isHexDigitChar at h
    simp only [Bool.or_eq_true, Bool.and_eq_true, decide_eq_true_eq] at h
    tauto
  rcases hh with hr | hr | hr
  · have hup : Char.toUpper e = e := by
      unfold Char.toUpper
      exact if_neg (by omega)
    refine ⟨e.toNat - 48, by omega, ?_, ?_, ?_, ?_⟩
    · rw [hup]
      unfold hexVal
      rw [if_pos (by simp only [Bool.and_eq_true, decide_eq_true_eq]; omega)]
    · rw [hup]
      unfold Char.toLower
      rw [if_neg (by omega)]
      unfold hexDigitLower
      rw [if_pos (by omega)]
      rw [show 48 + (e.toNat - 48) = e.toNat by omega, Char.ofNat_toNat]
    · rw [hup]
      unfold isHexDigitChar
      simp only [Bool.or_eq_true, Bool.and_eq_true, decide_eq_true_eq]
      omega
    · rw [hup]
      intro hco
      have := congrArg Char.toNat hco
      rw [h35] at this
      omega
  · have hup : Char.toUpper e = e := by
      unfold Char.toUpper
      exact if_neg (by omega)
    refine ⟨e.toNat - 55, by omega, ?_, ?_, ?_, ?_⟩
    · rw [hup]
      unfold hexVal
      rw [if_neg (by simp only [Bool.and_eq_true, decide_eq_true_eq, not_and]; omega),
        if_pos (by simp only [Bool.and_eq_true, decide_eq_true_eq]; omega)]
    · rw [hup]
      unfold Char.toLower
      rw [if_pos (by omega)]
      unfold hexDigitLower
      rw [if_neg (by omega)]
      rw [show 87 + (e.toNat - 55) = e.toNat + 32 by omega]
    · rw [hup]
      unfold isHexDigitChar
      simp only [Bool.or_eq_true, Bool.and_eq_true, decide_eq_true_eq]
      omega
    · rw [hup]
      intro hco
      have := congrArg Char.toNat hco
      rw [h35] at this
      omega
  · have hup : Char.toUpper e = Char.ofNat (e.toNat - 32) := by
      unfold Char.toUpper
      exact if_pos (by omega)
    have htn : (Char.toUpper e).toNat = e.toNat - 32 := by
      rw [hup]
      exact charOfNat_toNat (by omega)
    refine ⟨e.toNat - 87, by omega, ?_, ?_, ?_, ?_⟩
    · unfold hexVal
      rw [htn]
      rw [if_neg (by simp only [Bool.and_eq_true, decide_eq_true_eq, not_and]; omega),
        if_pos (by simp only [Bool.and_eq_true, decide_eq_true_eq]; omega)]
      rw [show e.toNat - 32 - 55 = e.toNat - 87 by omega]
    · unfold Char.toLower
      rw [htn, if_pos (by omega)]
      unfold hexDigitLower
      rw [if_neg (by omega)]
      rw [show 87 + (e.toNat - 87) = e.toNat by omega,
        show e.toNat - 32 + 32 = e.toNat by omega, Char.ofNat_toNat]
    · unfold isHexDigitChar
      rw [htn]
      simp only [Bool.or_eq_true, Bool.and_eq_true, decide_eq_true_eq]
      omega
    · intro hco
      have := congrArg Char.toNat hco
      rw [htn, h35] at this
      omega

/-! ### Validator shape lemmas -/

theorem exists_six {l : Str} (h : l.length = 6) :
    ∃ c0 c1 c2 c3 c4 c5 : Char, l = [c0, c1, c2, c3, c4, c5] := by
  rcases l with _ | ⟨c0, l⟩
  · simp at h
  rcases l with _ | ⟨c1, l⟩
  · simp at h
  rcases l with _ | ⟨c2, l⟩
  · simp at h
  rcases l with _ | ⟨c3, l⟩
  · simp at h
  rcases l with _ | ⟨c4, l⟩
  · simp at h
  rcases l with _ | ⟨c5, l⟩
  · simp at h
  rcases l with _ | ⟨c6, l⟩
  · exact ⟨c0, c1, c2, c3, c4, c5, rfl⟩
  · simp only [List.length_cons] at h
    omega

theorem validate_some_shape {raw c : Str} (h : validate raw = some c) :
    c = '#' :: (dropOptHash (pyStrip raw)).map Char.toUpper ∧
      (dropOptHash (pyStrip raw)).length = 6 ∧
      (dropOptHash (pyStrip raw)).all isHexDigitChar = true := by
  by_cases hraw : raw = []
  · rw [validate, if_pos hraw] at h
    exact absurd h (by simp)
  · rw [validate, if_neg hraw] at h
    simp only at h
    split at h
    · rename_i hcond
      exact ⟨(Option.some.injEq _ _ ▸ h).symm, hcond.1, hcond.2⟩
    · exact absurd h (by simp)

theorem validate_digit_facts {raw c : Str} (h : validate raw = some c) :
    ∃ ds : Str, c = '#' :: ds ∧ ds.length = 6 ∧
      ∀ d ∈ ds, ∃ v : Nat, v < 16 ∧ hexVal d = some v ∧
        Char.toLower d = hexDigitLower v ∧ isHexDigitChar d = true ∧ d ≠ '#' := by
  obtain ⟨hc, hlen, hall⟩ := validate_some_shape h
  refine ⟨(dropOptHash (pyStrip raw)).map Char.toUpper, hc, by simp [hlen], ?_⟩
  intro d hd
  obtain ⟨e, he, rfl⟩ := List.mem_map.mp hd
  have hhex : isHexDigitChar e = true := by
    have := List.all_eq_true.mp hall e he
    simpa using this
  exact hexCharFacts hhex

/-! ### strip_hash: the longest suffix not starting with the marker -/

theorem strip_hash_no_marker : ∀ (s t : Str), strip_hash s ≠ '#' :: t := by
  intro s
  induction s with
  | nil => intro t h; simp [strip_hash] at h
  | cons c s ih =>
    intro t h
    rw [strip_hash, List.dropWhile_cons] at h
    by_cases hc : c = '#'
    · rw [if_pos (by simp [hc])] at h
      exact ih t h
    · rw [if_neg (by simp [hc])] at h
      injection h with h1 _
      exact hc h1

theorem strip_hash_maximal : ∀ (s t : Str), t <:+ s → (∀ r : Str, t ≠ '#' :: r) →
    t <:+ strip_hash s := by
  intro s
  induction s with
  | nil =>
    intro t ht _
    simpa [strip_hash] using ht
  | cons c s ih =>
    intro t ht hnm
    rw [strip_hash, List.dropWhile_cons]
    by_cases hc : c = '#'
    · rw [if_pos (by simp [hc])]
      rcases List.suffix_cons_iff.mp ht with rfl | hts
      · exact absurd (by rw [hc]) (hnm s)
      · exact ih t hts hnm
    · rw [if_neg (by simp [hc])]
      exact ht

theorem strip_hash_cons_of_ne {d : Char} (hd : d ≠ '#') (l : Str) :
    strip_hash (d :: l) = d :: l := by
  rw [strip_hash, List.dropWhile_cons, if_neg (by simp [hd])]

/-! ### markerHex6 and validate -/

theorem markerHex6_of_match {u : Str} (hlen : (dropOptHash u).length = 6)
    (hall : (dropOptHash u).all isHexDigitChar = true) : markerHex6 u = true := by
  cases u with
  | nil => simp [dropOptHash] at hlen
  | cons c u' =>
    by_cases hc : c = '#'
    · subst hc
      simp [dropOptHash] at hlen hall
      unfold markerHex6
      simp [hlen, hall]
      exact hall
    · simp only [dropOptHash, if_neg hc] at hlen hall
      unfold markerHex6
      simp [hlen, hall]

/-- C10: `strip_hash` is total on all strings and removes every leading
marker: it returns the longest suffix of its input that does not start with
`#`; an input with no leading `#` comes back unchanged. -/
theorem claim_C10_strip_hash_longest_suffix (s : Str) :
    strip_hash s <:+ s ∧ (∀ t : Str, strip_hash s ≠ '#' :: t) ∧
      (∀ t : Str, t <:+ s → (∀ r : Str, t ≠ '#' :: r) → t <:+ strip_hash s) :=
  ⟨List.dropWhile_suffix _, strip_hash_no_marker s, strip_hash_maximal s⟩

/-- Witness for C10 at `##AABBCC`: the suffix `AABBCC` (which does not start
with the marker) is a suffix of the result, and indeed the result. -/
theorem claim_C10_strip_hash_longest_suffix_witness :
    strip_hash (("##AABBCC").toList) = (("AABBCC").toList) ∧
      (("AABBCC").toList) <:+ strip_hash (("##AABBCC").toList) := by
  refine ⟨by decide, ?_⟩
  apply (claim_C10_strip_hash_longest_suffix (("##AABBCC").toList)).2.2
  · decide
  · intro r hr
    injection hr with h1 _
    exact absurd h1 (by decide)

/-- C9 counterexample: `validate` strips surrounding whitespace before
matching, so the input `" AABBCC"` — which is not 6 hex digits optionally
preceded by a single leading marker — is nevertheless accepted. -/
theorem claim_C9_validate_rejects_cex :
    markerHex6 ((" AABBCC").toList) = false ∧
      validate ((" AABBCC").toList) = some (("#AABBCC").toList) := by
  decide

/-- C9 (amended): for every input whose whitespace-stripped form is not
exactly 6 hex digits optionally preceded by a single leading marker
character, `validate` fails (returns no value). -/
theorem claim_C9_validate_rejects (s : Str) (h : markerHex6 (pyStrip s) = false) :
    validate s = none := by
  by_cases hs : s = []
  · simp [validate, hs]
  · rw [validate, if_neg hs]
    simp only
    split
    · rename_i hcond
      exfalso
      rw [markerHex6_of_match hcond.1 hcond.2] at h
      simp at h
    · rfl

/-- Witness for C9 at the non-hex input `xyz`. -/
theorem claim_C9_validate_rejects_witness :
    markerHex6 (pyStrip (("xyz").toList)) = false ∧ validate (("xyz").toList) = none :=
  ⟨by decide, claim_C9_validate_rejects _ (by decide)⟩

/-- C1 counterexample: for the validated color `#AABBCC` the composition
`strip_hash (to_rgba (strip_hash c))` yields the 8-character `AABBCCFF`
(the alpha suffix is appended and never stripped), not the bare 6 digits. -/
theorem claim_C1_alpha_roundtrip_cex :
    validate (("#AABBCC").toList) = some (("#AABBCC").toList) ∧
      strip_hash (to_rgba (strip_hash (("#AABBCC").toList)) (("FF").toList)) =
        (("AABBCCFF").toList) ∧
      (("AABBCCFF").toList) ≠ (("AABBCC").toList) := by
  decide

/-- C1 (amended): for every validated color `c`, the composition
`strip_hash (to_rgba (strip_hash c) "FF")` equals the original 6 digits of
`c` followed by the alpha suffix `FF` — an 8-character string whose first 6
characters are the original digits. -/
theorem claim_C1_alpha_roundtrip (raw c : Str) (h : validate raw = some c) :
    strip_hash (to_rgba (strip_hash c) (("FF").toList)) = c.drop 1 ++ ("FF").toList ∧
      (strip_hash (to_rgba (strip_hash c) (("FF").toList))).take 6 = c.drop 1 ∧
      (strip_hash (to_rgba (strip_hash c) (("FF").toList))).length = 8 := by
  obtain ⟨ds, rfl, hlen, hfacts⟩ := validate_digit_facts h
  obtain ⟨c0, c1, c2, c3, c4, c5, rfl⟩ := exists_six hlen
  obtain ⟨v, -, -, -, -, hne⟩ := hfacts c0 (by simp)
  have hsh1 : strip_hash ('#' :: c0 :: [c1, c2, c3, c4, c5]) = c0 :: [c1, c2, c3, c4, c5] := by
    rw [strip_hash, List.dropWhile_cons, if_pos (by simp)]
    exact strip_hash_cons_of_ne hne _
  rw [hsh1, to_rgba, strip_hash_cons_of_ne hne]
  rw [show (c0 :: [c1, c2, c3, c4, c5]) ++ ("FF").toList =
    c0 :: ([c1, c2, c3, c4, c5] ++ ("FF").toList) by simp]
  rw [strip_hash_cons_of_ne hne]
  refine ⟨by simp, by simp, by simp⟩

/-- Witness for C1 at the validated color `#AABBCC`. -/
theorem claim_C1_alpha_roundtrip_witness :
    validate (("#AABBCC").toList) = some (("#AABBCC").toList) ∧
      strip_hash (to_rgba (strip_hash (("#AABBCC").toList)) (("FF").toList)) =
        (("#AABBCC").toList).drop 1 ++ ("FF").toList := by
  have hv : validate (("#AABBCC").toList) = some (("#AABBCC").toList) := by decide
  exact ⟨hv, (claim_C1_alpha_roundtrip _ _ hv).1⟩

/-! ### pyReplace infrastructure -/

theorem chopOff_length : ∀ {pat l rest : Str}, chopOff pat l = some rest →
    rest.length ≤ l.length
  | [], l, rest, h => by
      simp only [chopOff, Option.some.injEq] at h
      exact le_of_eq (by rw [h])
  | _ :: _, [], rest, h => by simp [chopOff] at h
  | p :: ps, c :: cs, rest, h => by
      by_cases hpc : p = c
      · simp only [chopOff, if_pos hpc] at h
        have := chopOff_length h
        simp only [List.length_cons]
        omega
      · simp [chopOff, if_neg hpc] at h

theorem chopOff_length_lt : ∀ {pat l rest : Str}, pat ≠ [] →
    chopOff pat l = some rest → rest.length < l.length
  | [], _, _, hp, _ => absurd rfl hp
  | _ :: _, [], _, _, h => by simp [chopOff] at h
  | p :: ps, c :: cs, rest, _, h => by
      by_cases hpc : p = c
      · simp only [chopOff, if_pos hpc] at h
        have := chopOff_length h
        simp only [List.length_cons]
        omega
      · simp [chopOff, if_neg hpc] at h

theorem chopOff_self : ∀ l : Str, chopOff l l = some []
  | [] => rfl
  | p :: ps => by simp only [chopOff, if_pos rfl]; exact chopOff_self ps

theorem pyReplaceF_fuel : ∀ (f : Nat) (pat rep s : Str), s.length ≤ f →
    pyReplaceF f pat rep s = pyReplaceF s.length pat rep s := by
  intro f
  induction f using Nat.strong_induction_on with
  | _ f ih =>
    intro pat rep s hs
    cases s with
    | nil => cases f <;> rfl
    | cons c s' =>
      cases f with
      | zero => simp at hs
      | succ f' =>
        simp only [List.length_cons, pyReplaceF]
        by_cases hcond : pat ≠ [] ∧ (chopOff pat (c :: s')).isSome
        · rw [if_pos hcond, if_pos hcond]
          obtain ⟨rest, hrest⟩ := Option.isSome_iff_exists.mp hcond.2
          have hlt := chopOff_length_lt hcond.1 hrest
          simp only [List.length_cons] at hlt hs
          simp only [hrest, Option.getD_some]
          congr 1
          rw [ih f' (by omega) pat rep rest (by omega),
            ih s'.length (by omega) pat rep rest (by omega)]
        · rw [if_neg hcond, if_neg hcond]
          simp only [List.length_cons] at hs
          congr 1
          rw [ih f' (by omega) pat rep s' (by omega),
            ih s'.length (by omega) pat rep s' (by omega)]

theorem pyReplace_nil (pat rep : Str) : pyReplace pat rep [] = [] := rfl

theorem pyReplace_cons_match {pat : Str} (hp : pat ≠ []) {c : Char} {s rest : Str}
    (hc : chopOff pat (c :: s) = some rest) (rep : Str) :
    pyReplace pat rep (c :: s) = rep ++ pyReplace pat rep rest := by
  rw [pyReplace, pyReplace]
  simp only [List.length_cons, pyReplaceF]
  rw [if_pos ⟨hp, by simp [hc]⟩]
  simp only [hc, Option.getD_some]
  congr 1
  have hlt := chopOff_length_lt hp hc
  simp only [List.length_cons] at hlt
  exact pyReplaceF_fuel s.length pat rep rest (by omega)

theorem pyReplace_cons_skip {pat : Str} {c : Char} {s : Str}
    (h : pat = [] ∨ chopOff pat (c :: s) = none) (rep : Str) :
    pyReplace pat rep (c :: s) = c :: pyReplace pat rep s := by
  rw [pyReplace, pyReplace]
  simp only [List.length_cons, pyReplaceF]
  rw [if_neg]
  rintro ⟨h1, h2⟩
  rcases h with h | h
  · exact h1 h
  · rw [h] at h2
    simp at h2

theorem pyReplace_self {pat : Str} (hp : pat ≠ []) (rep : Str) :
    pyReplace pat rep pat = rep := by
  cases pat with
  | nil => exact absurd rfl hp
  | cons p ps =>
    rw [pyReplace_cons_match hp (chopOff_self (p :: ps)) rep, pyReplace_nil]
    simp

/-- C2 counterexample: with template `{a}` and data `a ↦ {b}, b ↦ X` in that
order, the value substituted for `a` is re-scanned when `b` is processed:
the output is `X`, and the occurrence of `{b}` contributed by the value of
`a` does not remain verbatim in the output. -/
theorem claim_C2_render_no_rescan_cex :
    render_template (("\x7ba\x7d").toList)
        [((("a").toList), (("\x7bb\x7d").toList)), ((("b").toList), (("X").toList))] =
      (("X").toList) ∧
    ¬ (("\x7bb\x7d").toList) <:+: (("X").toList) := by
  decide

/-- C2 (amended): `render_template` substitutes keys sequentially in the
mapping's iteration order and each replacement is applied to the whole
working string, so a substituted value IS re-scanned for the placeholders of
keys processed later: for every value `v`, rendering the template `{a}` with
data `a ↦ {b}, b ↦ v` yields `v` itself — the occurrence of `{b}` inside the
substituted value of `a` is replaced, and remains verbatim only when its key
is processed no later than the key whose value contains it. -/
theorem claim_C2_render_rescans (v : Str) :
    render_template (("\x7ba\x7d").toList)
        [((("a").toList), (("\x7bb\x7d").toList)), ((("b").toList), v)] = v := by
  simp only [render_template, List.foldl]
  have h1 : pyReplace ('\x7b' :: ("a").toList ++ ['\x7d']) (("\x7bb\x7d").toList)
      (("\x7ba\x7d").toList) = (("\x7bb\x7d").toList) := by decide
  rw [h1]
  rw [show ('\x7b' :: ("b").toList ++ ['\x7d']) = (("\x7bb\x7d").toList) by decide]
  exact pyReplace_self (by decide) v

/-! ### Association-list lemmas for the override merge -/

theorem keys_setKey (k v : Str) (m : List (Str × Str)) :
    (setKey k v m).map Prod.fst = m.map Prod.fst := by
  induction m with
  | nil => rfl
  | cons kv rest ih =>
    simp only [setKey, List.map_cons] at ih ⊢
    by_cases hk : kv.1 = k
    · rw [if_pos hk]
      simp [hk, ih]
    · rw [if_neg hk]
      simp [ih]

theorem containsKey_iff_mem_keys (k : Str) (m : List (Str × Str)) :
    containsKey k m = true ↔ k ∈ m.map Prod.fst := by
  induction m with
  | nil => simp [containsKey, listLookup]
  | cons kv rest ih =>
    simp only [containsKey, listLookup, List.map_cons, List.mem_cons]
    by_cases hk : kv.1 = k
    · simp [hk]
    · rw [if_neg hk]
      simp only [containsKey] at ih
      rw [ih]
      constructor
      · exact Or.inr
      · rintro (h | h)
        · exact absurd h.symm hk
        · exact h

theorem containsKey_of_keys_eq {m m2 : List (Str × Str)}
    (h : m.map Prod.fst = m2.map Prod.fst) (k : Str) :
    containsKey k m = containsKey k m2 := by
  by_cases hm : containsKey k m = true
  · rw [hm]
    exact ((containsKey_iff_mem_keys k m2).mpr (h ▸ (containsKey_iff_mem_keys k m).mp hm)).symm
  · have hm2 : ¬ containsKey k m2 = true := fun hc =>
      hm ((containsKey_iff_mem_keys k m).mpr (h ▸ (containsKey_iff_mem_keys k m2).mp hc))
    simp only [Bool.not_eq_true] at hm hm2
    rw [hm, hm2]

theorem keys_ovStep (m : List (Str × Str)) (kv : Str × Str) :
    (ovStep m kv).map Prod.fst = m.map Prod.fst := by
  simp only [ovStep]
  by_cases hc : containsKey (semantic_key kv.1) m = true
  · rw [if_pos hc]
    exact keys_setKey _ _ m
  · simp only [Bool.not_eq_true] at hc
    simp [hc]

theorem keys_foldl_ovStep : ∀ (l : List (Str × Str)) (m : List (Str × Str)),
    (l.foldl ovStep m).map Prod.fst = m.map Prod.fst := by
  intro l
  induction l with
  | nil => intro m; rfl
  | cons kv l ih =>
    intro m
    rw [List.foldl_cons, ih (ovStep m kv), keys_ovStep]

theorem lookup_setKey_self {k : Str} {m : List (Str × Str)}
    (h : containsKey k m = true) (v : Str) :
    listLookup k (setKey k v m) = some v := by
  induction m with
  | nil => simp [containsKey, listLookup] at h
  | cons kv rest ih =>
    simp only [setKey, List.map_cons]
    by_cases hk : kv.1 = k
    · rw [if_pos hk]
      simp [listLookup]
    · rw [if_neg hk]
      simp only [listLookup, if_neg hk]
      apply ih
      simp only [containsKey, listLookup, if_neg hk] at h
      exact h

theorem lookup_setKey_ne {k kq : Str} (hne : kq ≠ k) (v : Str) (m : List (Str × Str)) :
    listLookup kq (setKey k v m) = listLookup kq m := by
  induction m with
  | nil => rfl
  | cons kv rest ih =>
    simp only [setKey, List.map_cons]
    by_cases hk : kv.1 = k
    · rw [if_pos hk]
      simp only [listLookup]
      rw [if_neg (fun h => hne h.symm), if_neg (by rw [hk]; exact fun h => hne h.symm)]
      exact ih
    · rw [if_neg hk]
      simp only [listLookup]
      by_cases hq : kv.1 = kq
      · rw [if_pos hq, if_pos hq]
      · rw [if_neg hq, if_neg hq]
        exact ih

theorem lookup_ovStep (m : List (Str × Str)) (kv : Str × Str) (k : Str)
    (hck : containsKey k m = true) :
    listLookup k (ovStep m kv) =
      if semantic_key kv.1 = k then some kv.2 else listLookup k m := by
  simp only [ovStep]
  by_cases hsk : semantic_key kv.1 = k
  · rw [if_pos hsk, hsk, if_pos hck]
    rw [lookup_setKey_self hck]
  · rw [if_neg hsk]
    by_cases hc : containsKey (semantic_key kv.1) m = true
    · rw [if_pos hc]
      exact lookup_setKey_ne (fun h => hsk h.symm) _ m
    · simp only [Bool.not_eq_true] at hc
      simp [hc]

theorem lookup_foldl_ovStep : ∀ (l : List (Str × Str)) (m : List (Str × Str)) (k : Str),
    containsKey k m = true →
    listLookup k (l.foldl ovStep m) =
      (match lastSem k l with
       | some v => some v
       | none => listLookup k m) := by
  intro l
  induction l with
  | nil =>
    intro m k _
    simp [lastSem]
  | cons kv l ih =>
    intro m k hck
    rw [List.foldl_cons]
    have hck2 : containsKey k (ovStep m kv) = true := by
      rw [containsKey_of_keys_eq (keys_ovStep m kv) k]
      exact hck
    rw [ih (ovStep m kv) k hck2]
    simp only [lastSem]
    cases hl : lastSem k l with
    | some v => rfl
    | none =>
      simp only
      rw [lookup_ovStep m kv k hck]
      by_cases hs : semantic_key kv.1 = k <;> simp [hs]

/-- C5: override precedence.  For every defaults mapping holding `D` at key
`K`, the merged value at `K` is the last per-theme override mapping to `K`
when one exists, else the last global override mapping to `K`, else `D`. -/
theorem claim_C5_override_precedence (d g p : List (Str × Str)) (k D : Str)
    (h : listLookup k d = some D) :
    listLookup k (apply_overrides d g p) =
      some ((lastSem k p).getD ((lastSem k g).getD D)) := by
  have hck : containsKey k d = true := by
    unfold containsKey
    rw [h]
    rfl
  have hck2 : containsKey k (g.foldl ovStep d) = true := by
    rw [containsKey_of_keys_eq (keys_foldl_ovStep g d) k]
    exact hck
  unfold apply_overrides
  rw [lookup_foldl_ovStep p _ k hck2]
  cases hp : lastSem k p with
  | some P => simp
  | none =>
    simp only [Option.getD_none]
    rw [lookup_foldl_ovStep g d k hck]
    cases hg : lastSem k g with
    | some G => simp
    | none => simp [h]

/-- Witness for C5: default `accent = #112233`, global override
`IDA_ACCENT = #445566` (already validated by `read_overrides`), no per-theme
override; the merged `accent` is `#445566`. -/
theorem claim_C5_override_precedence_witness :
    listLookup (("accent").toList) [((("accent").toList), (("#112233").toList))] =
      some (("#112233").toList) ∧
    listLookup (("accent").toList)
        (apply_overrides [((("accent").toList), (("#112233").toList))]
          [((("IDA_ACCENT").toList), (("#445566").toList))] []) =
      some (("#445566").toList) :=
  ⟨by decide,
    (claim_C5_override_precedence
      [((("accent").toList), (("#112233").toList))]
      [((("IDA_ACCENT").toList), (("#445566").toList))] []
      (("accent").toList) (("#112233").toList) (by decide)).trans
      (by decide)⟩

theorem lookup_foldl_ovStep_source : ∀ (l : List (Str × Str)) (m : List (Str × Str))
    (k val : Str), listLookup k (l.foldl ovStep m) = some val →
    listLookup k m = some val ∨ ∃ kv ∈ l, semantic_key kv.1 = k ∧ kv.2 = val := by
  intro l
  induction l with
  | nil =>
    intro m k val h
    exact Or.inl h
  | cons kv l ih =>
    intro m k val h
    rw [List.foldl_cons] at h
    rcases ih (ovStep m kv) k val h with h2 | ⟨kv2, hm, hsk, hv⟩
    · simp only [ovStep] at h2
      by_cases hc : containsKey (semantic_key kv.1) m = true
      · rw [if_pos hc] at h2
        by_cases hsk : semantic_key kv.1 = k
        · rw [hsk] at hc h2
          rw [lookup_setKey_self hc kv.2] at h2
          right
          exact ⟨kv, List.mem_cons_self kv l, hsk, by injection h2⟩
        · rw [lookup_setKey_ne (fun hx => hsk hx.symm) _ m] at h2
          exact Or.inl h2
      · simp only [Bool.not_eq_true] at hc
        rw [hc] at h2
        simp only [Bool.false_eq_true, if_false] at h2
        exact Or.inl h2
    · exact Or.inr ⟨kv2, List.mem_cons_of_mem kv hm, hsk, hv⟩

/-- C6 counterexample: `semantic_key` removes `IDA_` anywhere, not only as a
leading namespace: raw key `ACCIDA_ENT` maps to `accent`, so a defaults map
with key `accent` is overridden, while the prefix-stripping behaviour the
claim describes would leave it unchanged. -/
theorem claim_C6_key_formation_cex :
    apply_overrides [((("accent").toList), (("#111111").toList))]
        [((("ACCIDA_ENT").toList), (("#222222").toList))] [] ≠
      apply_overrides_claimC6 [((("accent").toList), (("#111111").toList))]
        [((("ACCIDA_ENT").toList), (("#222222").toList))] [] ∧
    listLookup (("accent").toList)
        (apply_overrides [((("accent").toList), (("#111111").toList))]
          [((("ACCIDA_ENT").toList), (("#222222").toList))] []) =
      some (("#222222").toList) ∧
    listLookup (("accent").toList)
        (apply_overrides_claimC6 [((("accent").toList), (("#111111").toList))]
          [((("ACCIDA_ENT").toList), (("#222222").toList))] []) =
      some (("#111111").toList) := by
  decide

/-- C6 (amended): `apply_overrides` forms the semantic key by deleting every
occurrence of the substring `IDA_` from the raw key (case-sensitively,
also from the middle) and lower-casing the result — e.g. `ACCIDA_ENT`
maps to `accent`; a formed key not already present in the working mapping is
silently ignored, so the merged result has exactly the keys of the defaults
mapping, and every merged value is either a default value or the value of an
override entry whose formed semantic key is that key. -/
theorem claim_C6_key_formation (d g p : List (Str × Str)) :
    (apply_overrides d g p).map Prod.fst = d.map Prod.fst ∧
    (∀ k val : Str, listLookup k (apply_overrides d g p) = some val →
      listLookup k d = some val ∨
        ∃ kv, (kv ∈ g ∨ kv ∈ p) ∧ semantic_key kv.1 = k ∧ kv.2 = val) ∧
    semantic_key (("ACCIDA_ENT").toList) = (("accent").toList) := by
  refine ⟨?_, ?_, by decide⟩
  · unfold apply_overrides
    rw [keys_foldl_ovStep p _, keys_foldl_ovStep g d]
  · intro k val h
    unfold apply_overrides at h
    rcases lookup_foldl_ovStep_source p _ k val h with h2 | ⟨kv, hm, hsk, hv⟩
    · rcases lookup_foldl_ovStep_source g d k val h2 with h3 | ⟨kv, hm, hsk, hv⟩
      · exact Or.inl h3
      · exact Or.inr ⟨kv, Or.inl hm, hsk, hv⟩
    · exact Or.inr ⟨kv, Or.inr hm, hsk, hv⟩

/-- Witness for C6 at the counterexample data: the merged value `#222222` at
key `accent` is accounted for by the override entry `ACCIDA_ENT`. -/
theorem claim_C6_key_formation_witness :
    listLookup (("accent").toList)
        (apply_overrides [((("accent").toList), (("#111111").toList))]
          [((("ACCIDA_ENT").toList), (("#222222").toList))] []) =
      some (("#222222").toList) ∧
    (listLookup (("accent").toList) [((("accent").toList), (("#111111").toList))] =
        some (("#222222").toList) ∨
      ∃ kv, (kv ∈ [((("ACCIDA_ENT").toList), (("#222222").toList))] ∨
          kv ∈ ([] : List (Str × Str))) ∧
        semantic_key kv.1 = (("accent").toList) ∧ kv.2 = (("#222222").toList)) := by
  have h : listLookup (("accent").toList)
      (apply_overrides [((("accent").toList), (("#111111").toList))]
        [((("ACCIDA_ENT").toList), (("#222222").toList))] []) =
      some (("#222222").toList) := by decide
  exact ⟨h, (claim_C6_key_formation [((("accent").toList), (("#111111").toList))]
    [((("ACCIDA_ENT").toList), (("#222222").toList))] []).2.1 _ _ h⟩

/-! ### read_overrides lemmas -/

theorem ro_fst_indep : ∀ (post : List Str) (n n2 : Nat) (m : List (Str × Str))
    (w w2 : List Nat),
    ((List.enumFrom n post).foldl roStep (m, w)).1 =
      ((List.enumFrom n2 post).foldl roStep (m, w2)).1 := by
  intro post
  induction post with
  | nil => intro n n2 m w w2; rfl
  | cons a post ih =>
    intro n n2 m w w2
    rw [List.enumFrom_cons, List.enumFrom_cons, List.foldl_cons, List.foldl_cons]
    cases hpa : processLine a with
    | skip =>
      simp only [roStep, hpa]
      exact ih _ _ m w w2
    | entry k v =>
      simp only [roStep, hpa]
      exact ih _ _ _ w w2
    | invalid =>
      simp only [roStep, hpa]
      exact ih _ _ m _ _

theorem ro_skip_bad : ∀ (pre : List Str) (line : Str),
    processLine line = LineOut.invalid →
    ∀ (post : List Str) (n : Nat) (m : List (Str × Str)) (w : List Nat),
    ((List.enumFrom n (pre ++ line :: post)).foldl roStep (m, w)).1 =
      ((List.enumFrom n (pre ++ post)).foldl roStep (m, w)).1 := by
  intro pre
  induction pre with
  | nil =>
    intro line hbad post n m w
    simp only [List.nil_append, List.enumFrom_cons, List.foldl_cons]
    simp only [roStep, hbad]
    exact ro_fst_indep post (n + 1) n m (w ++ [n + 1]) w
  | cons a pre ih =>
    intro line hbad post n m w
    simp only [List.cons_append, List.enumFrom_cons, List.foldl_cons]
    cases hpa : processLine a with
    | skip =>
      simp only [roStep, hpa]
      exact ih line hbad post (n + 1) m w
    | entry k v =>
      simp only [roStep, hpa]
      exact ih line hbad post (n + 1) _ w
    | invalid =>
      simp only [roStep, hpa]
      exact ih line hbad post (n + 1) m _

theorem ro_warn_pres : ∀ (l : List (Nat × Str)) (acc : List (Str × Str) × List Nat)
    (x : Nat), x ∈ acc.2 → x ∈ (l.foldl roStep acc).2 := by
  intro l
  induction l with
  | nil => intro acc x hx; exact hx
  | cons il l ih =>
    intro acc x hx
    rw [List.foldl_cons]
    apply ih
    cases hpa : processLine il.2 with
    | skip => simpa [roStep, hpa] using hx
    | entry k v => simpa [roStep, hpa] using hx
    | invalid =>
      simp only [roStep, hpa]
      exact List.mem_append_left _ hx

theorem ro_warn_bad : ∀ (pre : List Str) (line : Str),
    processLine line = LineOut.invalid →
    ∀ (post : List Str) (n : Nat) (m : List (Str × Str)) (w : List Nat),
    (n + pre.length + 1) ∈
      ((List.enumFrom n (pre ++ line :: post)).foldl roStep (m, w)).2 := by
  intro pre
  induction pre with
  | nil =>
    intro line hbad post n m w
    simp only [List.nil_append, List.enumFrom_cons, List.foldl_cons]
    simp only [roStep, hbad]
    apply ro_warn_pres
    simp
  | cons a pre ih =>
    intro line hbad post n m w
    simp only [List.cons_append, List.enumFrom_cons, List.foldl_cons]
    have harith : n + (a :: pre).length + 1 = (n + 1) + pre.length + 1 := by
      simp only [List.length_cons]
      omega
    rw [harith]
    cases hpa : processLine a with
    | skip =>
      simp only [roStep, hpa]
      exact ih line hbad post (n + 1) m w
    | entry k v =>
      simp only [roStep, hpa]
      exact ih line hbad post (n + 1) _ w
    | invalid =>
      simp only [roStep, hpa]
      exact ih line hbad post (n + 1) m _

theorem mem_setKey_src {kv : Str × Str} {k v : Str} {m : List (Str × Str)}
    (h : kv ∈ setKey k v m) : kv ∈ m ∨ kv = (k, v) := by
  obtain ⟨kv0, hkv0, heq⟩ := List.mem_map.mp h
  by_cases hk : kv0.1 = k
  · rw [if_pos hk] at heq
    exact Or.inr heq.symm
  · rw [if_neg hk] at heq
    exact Or.inl (heq ▸ hkv0)

theorem mem_dictInsert_src {kv : Str × Str} {k v : Str} {m : List (Str × Str)}
    (h : kv ∈ dictInsert k v m) : kv ∈ m ∨ kv = (k, v) := by
  unfold dictInsert at h
  by_cases hc : containsKey k m = true
  · rw [if_pos hc] at h
    exact mem_setKey_src h
  · simp only [Bool.not_eq_true] at hc
    rw [hc] at h
    simp only [Bool.false_eq_true, if_false] at h
    rcases List.mem_append.mp h with h2 | h2
    · exact Or.inl h2
    · exact Or.inr (by simpa using h2)

theorem ro_mem_src : ∀ (l : List (Nat × Str)) (acc : List (Str × Str) × List Nat)
    (kv : Str × Str), kv ∈ (l.foldl roStep acc).1 →
    kv ∈ acc.1 ∨ ∃ il ∈ l, processLine il.2 = LineOut.entry kv.1 kv.2 := by
  intro l
  induction l with
  | nil => intro acc kv h; exact Or.inl h
  | cons il l ih =>
    intro acc kv h
    rw [List.foldl_cons] at h
    rcases ih (roStep acc il) kv h with h2 | ⟨il2, hm, he⟩
    · cases hpa : processLine il.2 with
      | skip =>
        rw [show roStep acc il = acc by simp [roStep, hpa]] at h2
        exact Or.inl h2
      | entry k v =>
        rw [show roStep acc il = (dictInsert k v acc.1, acc.2) by simp [roStep, hpa]] at h2
        rcases mem_dictInsert_src h2 with h3 | h3
        · exact Or.inl h3
        · refine Or.inr ⟨il, List.mem_cons_self il l, ?_⟩
          rw [hpa, h3]
      | invalid =>
        rw [show roStep acc il = (acc.1, acc.2 ++ [il.1 + 1]) by simp [roStep, hpa]] at h2
        exact Or.inl h2
    · exact Or.inr ⟨il2, List.mem_cons_of_mem il hm, he⟩

theorem lookup_mem {k v : Str} : ∀ {m : List (Str × Str)},
    listLookup k m = some v → (k, v) ∈ m := by
  intro m
  induction m with
  | nil => intro h; simp [listLookup] at h
  | cons kv rest ih =>
    intro h
    simp only [listLookup] at h
    by_cases hk : kv.1 = k
    · rw [if_pos hk] at h
      have hv : kv.2 = v := by injection h
      have hkv : kv = (k, v) := by
        rw [← hk, ← hv]
      rw [← hkv]
      exact List.mem_cons_self kv rest
    · rw [if_neg hk] at h
      exact List.mem_cons_of_mem kv (ih h)

theorem lastSem_none : ∀ (ov : List (Str × Str)) (K : Str),
    (∀ kv ∈ ov, semantic_key kv.1 ≠ K) → lastSem K ov = none := by
  intro ov K
  induction ov with
  | nil => intro _; rfl
  | cons kv ov ih =>
    intro h
    simp only [lastSem]
    rw [ih (fun kv2 hm => h kv2 (List.mem_cons_of_mem kv hm))]
    simp only
    rw [if_neg (h kv (List.mem_cons_self kv ov))]

/-- C8 counterexample: the file `IDA_FOO=zzzzzz` / `IDA_FOO=aabbcc` contains
a KEY=VALUE line with an invalid value; the entry is dropped with a warning,
but the returned mapping does NOT omit the key `IDA_FOO`, because another
line supplies a valid value for it. -/
theorem claim_C8_invalid_line_cex :
    processLine (("IDA_FOO=zzzzzz").toList) = LineOut.invalid ∧
    (read_overrides [(("IDA_FOO=zzzzzz").toList), (("IDA_FOO=aabbcc").toList)]).2 = [1] ∧
    containsKey (("IDA_FOO").toList)
      (read_overrides [(("IDA_FOO=zzzzzz").toList), (("IDA_FOO=aabbcc").toList)]).1 = true := by
  decide

/-- C8 (amended): for every override file containing a KEY=VALUE line whose
nonempty trimmed value fails hex validation, `read_overrides` records a
warning carrying that line's 1-based number, drops that single entry, and
processes the remaining lines exactly as if the bad line were absent; the
returned mapping omits the key provided no other line supplies a valid entry
for it, and, for any defaults mapping, a semantic key no surviving entry
maps to keeps its default value in the merged result. -/
theorem claim_C8_invalid_line (pre post : List Str) (line : Str)
    (hbad : processLine line = LineOut.invalid) :
    (read_overrides (pre ++ line :: post)).1 = (read_overrides (pre ++ post)).1 ∧
    (pre.length + 1) ∈ (read_overrides (pre ++ line :: post)).2 ∧
    (∀ k : Str, (∀ l2 ∈ pre ++ post, ∀ v : Str, processLine l2 ≠ LineOut.entry k v) →
      containsKey k (read_overrides (pre ++ line :: post)).1 = false) ∧
    (∀ (d : List (Str × Str)) (K Dv : Str), listLookup K d = some Dv →
      (∀ l2 ∈ pre ++ line :: post, ∀ k2 v2 : Str,
        processLine l2 = LineOut.entry k2 v2 → semantic_key k2 ≠ K) →
      listLookup K (apply_overrides d (read_overrides (pre ++ line :: post)).1 []) =
        some Dv) := by
  refine ⟨ro_skip_bad pre line hbad post 0 [] [],
    by simpa using ro_warn_bad pre line hbad post 0 [] [], ?_, ?_⟩
  · intro k hk
    by_contra hc
    rw [Bool.not_eq_false] at hc
    unfold containsKey at hc
    obtain ⟨val, hval⟩ := Option.isSome_iff_exists.mp hc
    have hmem := lookup_mem hval
    rcases ro_mem_src ((pre ++ line :: post).enum) ([], []) (k, val) hmem with h0 | ⟨il, hil, he⟩
    · simp at h0
    · have h2 : il.2 ∈ pre ++ line :: post := by
        have h3 := List.mem_map_of_mem Prod.snd hil
        rwa [show ((pre ++ line :: post).enum).map Prod.snd = pre ++ line :: post from
          List.enumFrom_map_snd 0 _] at h3
      rcases List.mem_append.mp h2 with hp | hlp
      · exact hk il.2 (List.mem_append_left post hp) val he
      · rcases List.mem_cons.mp hlp with heq | hpost
        · rw [heq, hbad] at he
          exact LineOut.noConfusion he
        · exact hk il.2 (List.mem_append_right pre hpost) val he
  · intro d K Dv hD hnone
    have hck : containsKey K d = true := by
      unfold containsKey
      rw [hD]
      rfl
    unfold apply_overrides
    rw [List.foldl_nil, lookup_foldl_ovStep _ d K hck]
    have hnone2 : lastSem K (read_overrides (pre ++ line :: post)).1 = none := by
      apply lastSem_none
      intro kv hkv
      rcases ro_mem_src ((pre ++ line :: post).enum) ([], []) kv hkv with h0 | ⟨il, hil, he⟩
      · simp at h0
      · have h2 : il.2 ∈ pre ++ line :: post := by
          have h3 := List.mem_map_of_mem Prod.snd hil
          rwa [show ((pre ++ line :: post).enum).map Prod.snd = pre ++ line :: post from
            List.enumFrom_map_snd 0 _] at h3
        exact hnone il.2 h2 kv.1 kv.2 he
    rw [hnone2]
    exact hD

/-- Witness for C8: the bad line `IDA_FOO=zzzzzz` followed by the good line
`IDA_ACCENT=aabbcc`: warning for line 1, and the mapping equals that of the
file without the bad line. -/
theorem claim_C8_invalid_line_witness :
    (read_overrides [(("IDA_FOO=zzzzzz").toList), (("IDA_ACCENT=aabbcc").toList)]).1 =
      (read_overrides [(("IDA_ACCENT=aabbcc").toList)]).1 ∧
    1 ∈ (read_overrides [(("IDA_FOO=zzzzzz").toList), (("IDA_ACCENT=aabbcc").toList)]).2 := by
  have h := claim_C8_invalid_line [] [(("IDA_ACCENT=aabbcc").toList)]
    (("IDA_FOO=zzzzzz").toList) (by decide)
  exact ⟨h.1, h.2.1⟩

/-! ### Validate-stage lemmas -/

theorem validateStage_forall2 : ∀ {merged out : List (Str × Str)},
    validateStage merged = some out →
    List.Forall₂ (fun a b : Str × Str => a.1 = b.1 ∧ validate a.2 = some b.2) merged out := by
  intro merged
  induction merged with
  | nil =>
    intro out h
    simp only [validateStage, Option.some.injEq] at h
    rw [← h]
    exact List.Forall₂.nil
  | cons kv rest ih =>
    intro out h
    simp only [validateStage] at h
    cases hv : validate kv.2 with
    | none => rw [hv] at h; exact absurd h (by simp)
    | some v2 =>
      rw [hv] at h
      cases hr : validateStage rest with
      | none => rw [hr] at h; exact absurd h (by simp)
      | some r =>
        rw [hr] at h
        simp only [Option.map_some', Option.some.injEq] at h
        rw [← h]
        exact List.Forall₂.cons ⟨rfl, hv⟩ (ih hr)

theorem validateStage_id : ∀ (merged : List (Str × Str)),
    (∀ kv ∈ merged, validate kv.2 = some kv.2) → validateStage merged = some merged := by
  intro merged
  induction merged with
  | nil => intro _; rfl
  | cons kv rest ih =>
    intro h
    simp only [validateStage]
    rw [h kv (List.mem_cons_self kv rest), ih (fun kv2 hm => h kv2 (List.mem_cons_of_mem kv hm))]
    rfl

/-- C4 counterexample: a merged mapping may hold a value that is not in
canonical form (`ab12cd`, markerless and lowercase, as `semantic.json` may
supply it); the Validate stage canonicalises it, so the semantic stylesheet
and shell artifacts are rendered with `#AB12CD`, which is not string-equal
to the merged value — rendering from the merged mapping itself would have
produced `ab12cd`. -/
theorem claim_C4_semantic_artifacts_cex :
    buildSemanticArtifacts [((("accent").toList), (("ab12cd").toList))]
        (("\x7baccent\x7d").toList) (("\x7baccent\x7d").toList) =
      some ((("#AB12CD").toList), (("#AB12CD").toList)) ∧
    render_template (("\x7baccent\x7d").toList)
        [((("accent").toList), (("ab12cd").toList))] = (("ab12cd").toList) ∧
    (("#AB12CD").toList) ≠ (("ab12cd").toList) := by
  decide

/-- C4 (amended): the semantic stylesheet and shell-variables artifacts are
rendered from the Validate-stage output of the full merged SemanticMap: a
mapping with the same keys in the same order whose every value is the
canonical validated form of the corresponding merged value; each value is
string-equal to the merged value exactly when that value was already
canonical, and when every merged value is canonical the data mapping passed
to both render calls is the merged mapping itself, unchanged. -/
theorem claim_C4_semantic_artifacts (merged : List (Str × Str)) (t1 t2 : Str)
    (out1 out2 : Str) (h : buildSemanticArtifacts merged t1 t2 = some (out1, out2)) :
    ∃ sem : List (Str × Str), validateStage merged = some sem ∧
      List.Forall₂ (fun a b : Str × Str => a.1 = b.1 ∧ validate a.2 = some b.2) merged sem ∧
      out1 = render_template t1 sem ∧ out2 = render_template t2 sem ∧
      ((∀ kv ∈ merged, validate kv.2 = some kv.2) → sem = merged) := by
  unfold buildSemanticArtifacts at h
  cases hv : validateStage merged with
  | none =>
    rw [hv] at h
    exact absurd h (by simp)
  | some sem =>
    rw [hv] at h
    simp only [Option.map_some', Option.some.injEq, Prod.mk.injEq] at h
    refine ⟨sem, rfl, validateStage_forall2 hv, h.1.symm, h.2.symm, ?_⟩
    intro hid
    have h2 := validateStage_id merged hid
    rw [hv] at h2
    exact Option.some_injective _ h2

/-- Witness for C4 with an already-canonical merged mapping. -/
theorem claim_C4_semantic_artifacts_witness :
    buildSemanticArtifacts [((("accent").toList), (("#AB12CD").toList))]
        (("\x7baccent\x7d").toList) (("\x7baccent\x7d").toList) =
      some ((("#AB12CD").toList), (("#AB12CD").toList)) ∧
    ∃ sem : List (Str × Str),
      validateStage [((("accent").toList), (("#AB12CD").toList))] = some sem ∧
      List.Forall₂ (fun a b : Str × Str => a.1 = b.1 ∧ validate a.2 = some b.2)
        [((("accent").toList), (("#AB12CD").toList))] sem ∧
      (("#AB12CD").toList) = render_template (("\x7baccent\x7d").toList) sem ∧
      (("#AB12CD").toList) = render_template (("\x7baccent\x7d").toList) sem ∧
      ((∀ kv ∈ [((("accent").toList), (("#AB12CD").toList))], validate kv.2 = some kv.2) →
        sem = [((("accent").toList), (("#AB12CD").toList))]) := by
  have h : buildSemanticArtifacts [((("accent").toList), (("#AB12CD").toList))]
      (("\x7baccent\x7d").toList) (("\x7baccent\x7d").toList) =
      some ((("#AB12CD").toList), (("#AB12CD").toList)) := by decide
  exact ⟨h, claim_C4_semantic_artifacts _ _ _ _ _ h⟩

/-! ### Exact-rational colorsys lemmas -/

theorem pyMod1_eq_fract (q : ℚ) : pyMod1 q = Int.fract q := by
  rw [pyMod1, Int.fract, Rat.floor_def', ← Rat.floor_def]

theorem fract_self_of {x : ℚ} (h0 : 0 ≤ x) (h1 : x < 1) : Int.fract x = x :=
  Int.fract_eq_self.mpr ⟨h0, h1⟩

theorem fract_add_one (x : ℚ) : Int.fract (x + 1) = Int.fract x := by
  have h := Int.fract_add_int x (1 : ℤ)
  simpa using h

theorem fract_sub_one (x : ℚ) : Int.fract (x - 1) = Int.fract x := by
  have h := Int.fract_sub_int x (1 : ℤ)
  simpa using h

theorem vComp_congr_fract {x y : ℚ} (h : Int.fract x = Int.fract y) (m1 m2 : ℚ) :
    vComp m1 m2 x = vComp m1 m2 y := by
  simp only [vComp, pyMod1_eq_fract, h]

theorem vComp_seg1 {x : ℚ} (h0 : 0 ≤ x) (h1 : x < 1/6) (m1 m2 : ℚ) :
    vComp m1 m2 x = m1 + (m2 - m1) * x * 6 := by
  simp only [vComp, pyMod1_eq_fract]
  rw [fract_self_of h0 (by linarith), if_pos h1]

theorem vComp_seg2 {x : ℚ} (h1 : 1/6 ≤ x) (h2 : x < 1/2) (m1 m2 : ℚ) :
    vComp m1 m2 x = m2 := by
  simp only [vComp, pyMod1_eq_fract]
  rw [fract_self_of (by linarith) (by linarith), if_neg (not_lt.mpr h1), if_pos h2]

theorem vComp_seg3 {x : ℚ} (h1 : 1/2 ≤ x) (h2 : x < 2/3) (m1 m2 : ℚ) :
    vComp m1 m2 x = m1 + (m2 - m1) * (2/3 - x) * 6 := by
  simp only [vComp, pyMod1_eq_fract]
  rw [fract_self_of (by linarith) (by linarith), if_neg (by linarith), if_neg (not_lt.mpr h1),
    if_pos h2]

theorem vComp_seg4 {x : ℚ} (h1 : 2/3 ≤ x) (h2 : x < 1) (m1 m2 : ℚ) :
    vComp m1 m2 x = m1 := by
  simp only [vComp, pyMod1_eq_fract]
  rw [fract_self_of (by linarith) (by linarith), if_neg (by linarith), if_neg (by linarith),
    if_neg (not_lt.mpr h1)]

theorem hls_side (mn Mx hh : ℚ) (hmn0 : 0 ≤ mn) (hlt : mn < Mx) (hMx1 : Mx ≤ 1) :
    hls_to_rgb hh ((Mx + mn) / 2)
      (if (Mx + mn) / 2 ≤ 1/2 then (Mx - mn) / (Mx + mn) else (Mx - mn) / (2 - (Mx + mn))) =
      (vComp mn Mx (hh + 1/3), vComp mn Mx hh, vComp mn Mx (hh - 1/3)) := by
  have hsum : 0 < Mx + mn := by linarith
  have hsum2 : Mx + mn < 2 := by linarith
  set S := (if (Mx + mn) / 2 ≤ 1/2 then (Mx - mn) / (Mx + mn) else (Mx - mn) / (2 - (Mx + mn)))
    with hS
  have hs_pos : 0 < S := by
    rw [hS]
    split
    · exact div_pos (by linarith) hsum
    · exact div_pos (by linarith) (by linarith)
  simp only [hls_to_rgb]
  rw [if_neg (by intro h0; rw [h0] at hs_pos; exact lt_irrefl 0 hs_pos)]
  have hm2 : (if (Mx + mn) / 2 ≤ 1/2 then (Mx + mn) / 2 * (1 + S)
      else (Mx + mn) / 2 + S - (Mx + mn) / 2 * S) = Mx := by
    rw [hS]
    by_cases hc : (Mx + mn) / 2 ≤ 1/2
    · rw [if_pos hc, if_pos hc]
      field_simp
      ring
    · rw [if_neg hc, if_neg hc]
      have h2s : (0:ℚ) < 2 - (Mx + mn) := by linarith
      field_simp
      ring
  rw [hm2]
  rw [show 2 * ((Mx + mn) / 2) - Mx = mn by ring]

theorem rgb_to_hls_ne_eval (r g b : ℚ) (hmm : ¬ min r (min g b) = max r (max g b)) :
    rgb_to_hls r g b =
      (pyMod1 ((if r = max r (max g b)
          then (max r (max g b) - b) / (max r (max g b) - min r (min g b)) -
            (max r (max g b) - g) / (max r (max g b) - min r (min g b))
          else if g = max r (max g b)
          then 2 + (max r (max g b) - r) / (max r (max g b) - min r (min g b)) -
            (max r (max g b) - b) / (max r (max g b) - min r (min g b))
          else 4 + (max r (max g b) - g) / (max r (max g b) - min r (min g b)) -
            (max r (max g b) - r) / (max r (max g b) - min r (min g b))) / 6),
       (max r (max g b) + min r (min g b)) / 2,
       if (max r (max g b) + min r (min g b)) / 2 ≤ 1/2
         then (max r (max g b) - min r (min g b)) / (max r (max g b) + min r (min g b))
         else (max r (max g b) - min r (min g b)) / (2 - (max r (max g b) + min r (min g b)))) := by
  simp only [rgb_to_hls]
  rw [if_neg hmm]

theorem channels_r_max (mn Mx g b : ℚ) (hlt : mn < Mx)
    (hgM : g ≤ Mx) (hbM : b ≤ Mx) (hmng : mn ≤ g) (hmnb : mn ≤ b)
    (hmin : mn = min g b) :
    vComp mn Mx (pyMod1 (((Mx - b) / (Mx - mn) - (Mx - g) / (Mx - mn)) / 6) + 1/3) = Mx ∧
    vComp mn Mx (pyMod1 (((Mx - b) / (Mx - mn) - (Mx - g) / (Mx - mn)) / 6)) = g ∧
    vComp mn Mx (pyMod1 (((Mx - b) / (Mx - mn) - (Mx - g) / (Mx - mn)) / 6) - 1/3) = b := by
  have hD : 0 < Mx - mn := by linarith
  have hDne : Mx - mn ≠ 0 := ne_of_gt hD
  have hq6 : ((Mx - b) / (Mx - mn) - (Mx - g) / (Mx - mn)) / 6 = (g - b) / (6 * (Mx - mn)) := by
    rw [div_sub_div_same, show Mx - b - (Mx - g) = g - b by ring, div_div,
      show (Mx - mn) * 6 = 6 * (Mx - mn) by ring]
  rw [hq6]
  set q := (g - b) / (6 * (Mx - mn)) with hqdef
  have hqmul : g - b = q * (6 * (Mx - mn)) := by
    rw [hqdef, div_mul_cancel₀ _ (show (6:ℚ) * (Mx - mn) ≠ 0 from by positivity)]
  have hqu : q ≤ 1/6 := by
    rw [hqdef, div_le_div_iff (by linarith) (by norm_num)]
    linarith
  have hql : -(1/6) ≤ q := by
    rw [hqdef, le_div_iff (by linarith)]
    linarith
  rw [pyMod1_eq_fract]
  by_cases hq0 : 0 ≤ q
  · have hfq : Int.fract q = q := fract_self_of hq0 (by linarith)
    have hgb : b ≤ g := by
      have hx := mul_nonneg hq0 (by linarith : (0:ℚ) ≤ 6 * (Mx - mn))
      linarith [hqmul]
    have hmb : mn = b := by
      rw [hmin]
      exact min_eq_right hgb
    rw [hfq]
    rcases lt_or_eq_of_le hqu with hqlt | hqeq
    · refine ⟨?_, ?_, ?_⟩
      · rw [vComp_seg2 (by linarith) (by linarith)]
      · rw [vComp_seg1 (by linarith) (by linarith)]
        linarith [hqmul]
      · rw [vComp_congr_fract (show Int.fract (q - 1/3) = Int.fract (q + 2/3) from by
          rw [show q - 1/3 = (q + 2/3) - 1 by ring, fract_sub_one]) mn Mx]
        rw [vComp_seg4 (by linarith) (by linarith)]
        linarith
    · have hgbD : g - b = Mx - mn := by
        rw [hqeq] at hqmul
        linarith
      refine ⟨?_, ?_, ?_⟩
      · rw [hqeq, vComp_seg3 (by norm_num) (by norm_num)]
        linarith
      · rw [hqeq, vComp_seg2 (by norm_num) (by norm_num)]
        linarith
      · rw [hqeq]
        rw [vComp_congr_fract (show Int.fract ((1:ℚ)/6 - 1/3) = Int.fract ((1:ℚ)/6 + 2/3) from by
          rw [show (1:ℚ)/6 - 1/3 = ((1:ℚ)/6 + 2/3) - 1 by ring, fract_sub_one]) mn Mx]
        rw [vComp_seg4 (by norm_num) (by norm_num)]
        linarith
  · push_neg at hq0
    have hgb : g < b := by
      have hx := mul_neg_of_neg_of_pos hq0 (by linarith : (0:ℚ) < 6 * (Mx - mn))
      linarith [hqmul]
    have hmg : mn = g := by
      rw [hmin]
      exact min_eq_left hgb.le
    have hfq : Int.fract q = q + 1 := by
      have h1 := fract_add_one q
      rw [← h1]
      exact fract_self_of (by linarith) (by linarith)
    rw [hfq]
    refine ⟨?_, ?_, ?_⟩
    · rw [vComp_congr_fract (show Int.fract (q + 1 + 1/3) = Int.fract (q + 1/3) from by
        rw [show q + 1 + 1/3 = (q + 1/3) + 1 by ring, fract_add_one]) mn Mx]
      rw [vComp_seg2 (by linarith) (by linarith)]
    · rw [vComp_seg4 (by linarith) (by linarith)]
      linarith
    · rw [show q + 1 - 1/3 = q + 2/3 by ring]
      rw [vComp_seg3 (by linarith) (by linarith)]
      linarith [hqmul]

theorem channels_g_max (mn Mx r b : ℚ) (hlt : mn < Mx)
    (hrM : r ≤ Mx) (hbM : b ≤ Mx) (hmnr : mn ≤ r) (hmnb : mn ≤ b)
    (hmin : mn = min r b) :
    vComp mn Mx (pyMod1 ((2 + (Mx - r) / (Mx - mn) - (Mx - b) / (Mx - mn)) / 6) + 1/3) = r ∧
    vComp mn Mx (pyMod1 ((2 + (Mx - r) / (Mx - mn) - (Mx - b) / (Mx - mn)) / 6)) = Mx ∧
    vComp mn Mx (pyMod1 ((2 + (Mx - r) / (Mx - mn) - (Mx - b) / (Mx - mn)) / 6) - 1/3) = b := by
  have hD : 0 < Mx - mn := by linarith
  have hq6 : (2 + (Mx - r) / (Mx - mn) - (Mx - b) / (Mx - mn)) / 6 =
      1/3 + (b - r) / (6 * (Mx - mn)) := by
    rw [add_sub_assoc, div_sub_div_same, show Mx - r - (Mx - b) = b - r by ring, add_div,
      div_div, show (Mx - mn) * 6 = 6 * (Mx - mn) by ring]
    norm_num
  rw [hq6]
  set e := (b - r) / (6 * (Mx - mn)) with hedef
  have hemul : b - r = e * (6 * (Mx - mn)) := by
    rw [hedef, div_mul_cancel₀ _ (show (6:ℚ) * (Mx - mn) ≠ 0 from by positivity)]
  have heu : e ≤ 1/6 := by
    rw [hedef, div_le_div_iff (by linarith) (by norm_num)]
    linarith
  have hel : -(1/6) ≤ e := by
    rw [hedef, le_div_iff (by linarith)]
    linarith
  rw [pyMod1_eq_fract]
  have hfx : Int.fract (1/3 + e) = 1/3 + e := fract_self_of (by linarith) (by linarith)
  rw [hfx]
  refine ⟨?_, ?_, ?_⟩
  · rw [show (1:ℚ)/3 + e + 1/3 = 2/3 + e by ring]
    by_cases he0 : 0 ≤ e
    · have hrb : r ≤ b := by
        have hx := mul_nonneg he0 (by linarith : (0:ℚ) ≤ 6 * (Mx - mn))
        linarith [hemul]
      have hmr : mn = r := by
        rw [hmin]
        exact min_eq_left hrb
      rw [vComp_seg4 (by linarith) (by linarith)]
      linarith
    · push_neg at he0
      have hbr : b < r := by
        have hx := mul_neg_of_neg_of_pos he0 (by linarith : (0:ℚ) < 6 * (Mx - mn))
        linarith [hemul]
      have hmb : mn = b := by
        rw [hmin]
        exact min_eq_right hbr.le
      rw [vComp_seg3 (by linarith) (by linarith)]
      linarith [hemul]
  · rcases lt_or_eq_of_le heu with helt | heeq
    · rw [vComp_seg2 (by linarith) (by linarith)]
    · rw [heeq, vComp_seg3 (by norm_num) (by norm_num)]
      linarith
  · rw [show (1:ℚ)/3 + e - 1/3 = e by ring]
    by_cases he0 : 0 ≤ e
    · have hrb : r ≤ b := by
        have hx := mul_nonneg he0 (by linarith : (0:ℚ) ≤ 6 * (Mx - mn))
        linarith [hemul]
      have hmr : mn = r := by
        rw [hmin]
        exact min_eq_left hrb
      rcases lt_or_eq_of_le heu with helt | heeq
      · rw [vComp_seg1 (by linarith) (by linarith)]
        linarith [hemul]
      · have hbrD : b - r = Mx - mn := by
          rw [heeq] at hemul
          linarith
        rw [heeq, vComp_seg2 (by norm_num) (by norm_num)]
        linarith
    · push_neg at he0
      have hbr : b < r := by
        have hx := mul_neg_of_neg_of_pos he0 (by linarith : (0:ℚ) < 6 * (Mx - mn))
        linarith [hemul]
      have hmb : mn = b := by
        rw [hmin]
        exact min_eq_right hbr.le
      rw [vComp_congr_fract ((fract_add_one e).symm) mn Mx]
      rw [vComp_seg4 (by linarith) (by linarith)]
      linarith

theorem channels_b_max (mn Mx r g : ℚ) (hlt : mn < Mx)
    (hrM : r < Mx) (hgM : g < Mx) (hmnr : mn ≤ r) (hmng : mn ≤ g)
    (hmin : mn = min r g) :
    vComp mn Mx (pyMod1 ((4 + (Mx - g) / (Mx - mn) - (Mx - r) / (Mx - mn)) / 6) + 1/3) = r ∧
    vComp mn Mx (pyMod1 ((4 + (Mx - g) / (Mx - mn) - (Mx - r) / (Mx - mn)) / 6)) = g ∧
    vComp mn Mx (pyMod1 ((4 + (Mx - g) / (Mx - mn) - (Mx - r) / (Mx - mn)) / 6) - 1/3) = Mx := by
  have hD : 0 < Mx - mn := by linarith
  have hq6 : (4 + (Mx - g) / (Mx - mn) - (Mx - r) / (Mx - mn)) / 6 =
      2/3 + (r - g) / (6 * (Mx - mn)) := by
    rw [add_sub_assoc, div_sub_div_same, show Mx - g - (Mx - r) = r - g by ring, add_div,
      div_div, show (Mx - mn) * 6 = 6 * (Mx - mn) by ring]
    norm_num
  rw [hq6]
  set f := (r - g) / (6 * (Mx - mn)) with hfdef
  have hfmul : r - g = f * (6 * (Mx - mn)) := by
    rw [hfdef, div_mul_cancel₀ _ (show (6:ℚ) * (Mx - mn) ≠ 0 from by positivity)]
  have hfu : f < 1/6 := by
    rw [hfdef, div_lt_div_iff (by linarith) (by norm_num)]
    linarith
  have hfl : -(1/6) < f := by
    rw [hfdef, lt_div_iff (by linarith)]
    linarith
  rw [pyMod1_eq_fract]
  have hfx : Int.fract (2/3 + f) = 2/3 + f := fract_self_of (by linarith) (by linarith)
  rw [hfx]
  refine ⟨?_, ?_, ?_⟩
  · by_cases hf0 : 0 ≤ f
    · have hgr : g ≤ r := by
        have hx := mul_nonneg hf0 (by linarith : (0:ℚ) ≤ 6 * (Mx - mn))
        linarith [hfmul]
      have hmg : mn = g := by
        rw [hmin]
        exact min_eq_right hgr
      rw [vComp_congr_fract (show Int.fract (2/3 + f + 1/3) = Int.fract f from by
        rw [show (2:ℚ)/3 + f + 1/3 = f + 1 by ring, fract_add_one]) mn Mx]
      rw [vComp_seg1 (by linarith) (by linarith)]
      linarith [hfmul]
    · push_neg at hf0
      have hrg : r < g := by
        have hx := mul_neg_of_neg_of_pos hf0 (by linarith : (0:ℚ) < 6 * (Mx - mn))
        linarith [hfmul]
      have hmr : mn = r := by
        rw [hmin]
        exact min_eq_left hrg.le
      rw [show (2:ℚ)/3 + f + 1/3 = f + 1 by ring]
      rw [vComp_seg4 (by linarith) (by linarith)]
      linarith
  · by_cases hf0 : 0 ≤ f
    · have hgr : g ≤ r := by
        have hx := mul_nonneg hf0 (by linarith : (0:ℚ) ≤ 6 * (Mx - mn))
        linarith [hfmul]
      have hmg : mn = g := by
        rw [hmin]
        exact min_eq_right hgr
      rw [vComp_seg4 (by linarith) (by linarith)]
      linarith
    · push_neg at hf0
      have hrg : r < g := by
        have hx := mul_neg_of_neg_of_pos hf0 (by linarith : (0:ℚ) < 6 * (Mx - mn))
        linarith [hfmul]
      have hmr : mn = r := by
        rw [hmin]
        exact min_eq_left hrg.le
      rw [vComp_seg3 (by linarith) (by linarith)]
      linarith [hfmul]
  · rw [show (2:ℚ)/3 + f - 1/3 = 1/3 + f by ring]
    rw [vComp_seg2 (by linarith) (by linarith)]

theorem hls_rgb_roundtrip (r g b : ℚ) (h0r : 0 ≤ r) (h1r : r ≤ 1) (h0g : 0 ≤ g)
    (h1g : g ≤ 1) (h0b : 0 ≤ b) (h1b : b ≤ 1) :
    hls_to_rgb (rgb_to_hls r g b).1 (rgb_to_hls r g b).2.1 (rgb_to_hls r g b).2.2 =
      (r, g, b) := by
  have hmr : min r (min g b) ≤ r := min_le_left _ _
  have hmg : min r (min g b) ≤ g := le_trans (min_le_right r _) (min_le_left g b)
  have hmb : min r (min g b) ≤ b := le_trans (min_le_right r _) (min_le_right g b)
  have hMr : r ≤ max r (max g b) := le_max_left _ _
  have hMg : g ≤ max r (max g b) := le_trans (le_max_left g b) (le_max_right r _)
  have hMb : b ≤ max r (max g b) := le_trans (le_max_right g b) (le_max_right r _)
  have hmn0 : 0 ≤ min r (min g b) := le_min h0r (le_min h0g h0b)
  have hMx1 : max r (max g b) ≤ 1 := max_le h1r (max_le h1g h1b)
  by_cases hmm : min r (min g b) = max r (max g b)
  · simp only [rgb_to_hls]
    rw [if_pos hmm]
    dsimp only
    simp only [hls_to_rgb, if_true]
    simp only [Prod.mk.injEq]
    refine ⟨by linarith, by linarith, by linarith⟩
  · have hltMm : min r (min g b) < max r (max g b) := lt_of_le_of_ne (le_trans hmr hMr) hmm
    rw [rgb_to_hls_ne_eval r g b hmm]
    dsimp only
    rw [hls_side (min r (min g b)) (max r (max g b)) _ hmn0 hltMm hMx1]
    by_cases hr : r = max r (max g b)
    · rw [if_pos hr]
      have hgr : g ≤ r := le_of_le_of_eq hMg hr.symm
      have hbr : b ≤ r := le_of_le_of_eq hMb hr.symm
      have hmin_gb : min r (min g b) = min g b :=
        min_eq_right (le_trans (min_le_left g b) hgr)
      have hcs := channels_r_max (min r (min g b)) (max r (max g b)) g b hltMm hMg hMb
        hmg hmb hmin_gb
      simp only [Prod.mk.injEq]
      refine ⟨?_, hcs.2.1, hcs.2.2⟩
      rw [hcs.1]
      exact hr.symm
    · by_cases hg : g = max r (max g b)
      · rw [if_neg hr, if_pos hg]
        have hbg : b ≤ g := le_of_le_of_eq hMb hg.symm
        have hmin_rb : min r (min g b) = min r b := by
          rw [min_eq_right hbg]
        have hcs := channels_g_max (min r (min g b)) (max r (max g b)) r b hltMm hMr hMb
          hmr hmb hmin_rb
        simp only [Prod.mk.injEq]
        refine ⟨hcs.1, ?_, hcs.2.2⟩
        rw [hcs.2.1]
        exact hg.symm
      · have hb : b = max r (max g b) := by
          rcases max_choice r (max g b) with h | h
          · exact absurd h.symm hr
          · rcases max_choice g b with h2 | h2
            · exact absurd (h.trans h2).symm hg
            · exact (h.trans h2).symm
        rw [if_neg hr, if_neg hg]
        have hrMx : r < max r (max g b) := lt_of_le_of_ne hMr hr
        have hgMx : g < max r (max g b) := lt_of_le_of_ne hMg hg
        have hgb : g ≤ b := le_of_le_of_eq hMg hb.symm
        have hmin_rg : min r (min g b) = min r g := by
          rw [min_eq_left hgb]
        have hcs := channels_b_max (min r (min g b)) (max r (max g b)) r g hltMm hrMx hgMx
          hmr hmg hmin_rg
        simp only [Prod.mk.injEq]
        refine ⟨hcs.1, hcs.2.1, ?_⟩
        rw [hcs.2.2]
        exact hb.symm

theorem ratFloor_eq_intFloor (q : ℚ) : Rat.floor q = ⌊q⌋ := by
  rw [Rat.floor_def', ← Rat.floor_def]

theorem pyInt_natCast (v : ℕ) : pyInt ((v : ℚ)) = (v : ℤ) := by
  unfold pyInt
  rw [if_neg (not_lt.mpr (by positivity)), ratFloor_eq_intFloor]
  exact Int.floor_natCast v

theorem natToHex_lt {n : Nat} (h : n < 16) : natToHex n = [hexDigitLower n] := by
  rw [natToHex, dif_pos h]

theorem pyHex02_byte (a b : Nat) (ha : a < 16) (hb : b < 16) :
    pyHex02 ((a * 16 + b : ℕ) : ℤ) = [hexDigitLower a, hexDigitLower b] := by
  unfold pyHex02
  rw [if_neg (not_lt.mpr (by positivity)), Int.toNat_natCast]
  by_cases ha0 : a = 0
  · subst ha0
    rw [show 0 * 16 + b = b by omega, natToHex_lt hb]
    unfold pad2
    rw [if_pos (by simp)]
    have h0 : ('0' : Char) = hexDigitLower 0 := by decide
    rw [h0]
  · have h16 : ¬ (a * 16 + b < 16) := by
      rcases Nat.exists_eq_succ_of_ne_zero ha0 with ⟨a2, rfl⟩
      omega
    rw [natToHex, dif_neg h16,
      show (a * 16 + b) / 16 = a by omega, show (a * 16 + b) % 16 = b by omega,
      natToHex_lt ha]
    unfold pad2
    rw [if_neg (by simp)]
    rfl

theorem rgb_to_hls_l (r g b : ℚ) :
    (rgb_to_hls r g b).2.1 = (max r (max g b) + min r (min g b)) / 2 := by
  simp only [rgb_to_hls]
  by_cases hmm : min r (min g b) = max r (max g b)
  · rw [if_pos hmm]
  · rw [if_neg hmm]

theorem rgb_l2_zero (xr xg xb : ℚ) (h1r : xr ≤ 1) (h1g : xg ≤ 1) (h1b : xb ≤ 1) :
    min 1 ((rgb_to_hls xr xg xb).2.1 + 0) = (rgb_to_hls xr xg xb).2.1 := by
  rw [add_zero, min_eq_right]
  rw [rgb_to_hls_l]
  have h1 : max xr (max xg xb) ≤ 1 := max_le h1r (max_le h1g h1b)
  have h2 : min xr (min xg xb) ≤ max xr (max xg xb) :=
    le_trans (min_le_left _ _) (le_max_left _ _)
  linarith

theorem lightenChannels_zero (r g b : ℕ) (hr : r ≤ 255) (hg : g ≤ 255) (hb : b ≤ 255) :
    lightenChannels r g b 0 = ((r : ℤ), (g : ℤ), (b : ℤ)) := by
  have hxr1 : ((r : ℚ)) / 255 ≤ 1 := by
    rw [div_le_one (by norm_num)]
    exact_mod_cast hr
  have hxg1 : ((g : ℚ)) / 255 ≤ 1 := by
    rw [div_le_one (by norm_num)]
    exact_mod_cast hg
  have hxb1 : ((b : ℚ)) / 255 ≤ 1 := by
    rw [div_le_one (by norm_num)]
    exact_mod_cast hb
  simp only [lightenChannels]
  rw [rgb_l2_zero _ _ _ hxr1 hxg1 hxb1]
  rw [hls_rgb_roundtrip ((r : ℚ)/255) ((g : ℚ)/255) ((b : ℚ)/255)
    (by positivity) hxr1 (by positivity) hxg1 (by positivity) hxb1]
  dsimp only
  rw [div_mul_cancel₀ _ (show (255:ℚ) ≠ 0 from by norm_num),
    div_mul_cancel₀ _ (show (255:ℚ) ≠ 0 from by norm_num),
    div_mul_cancel₀ _ (show (255:ℚ) ≠ 0 from by norm_num),
    pyInt_natCast, pyInt_natCast, pyInt_natCast]

theorem parseHexStr_pair {d0 d1 : Char} {v0 v1 : Nat} (h0 : hexVal d0 = some v0)
    (h1 : hexVal d1 = some v1) : parseHexStr [d0, d1] = some (v0 * 16 + v1) := by
  simp only [parseHexStr, List.foldlM, h0, h1]
  simp [Nat.zero_mul, Nat.zero_add, Nat.mul_comm]

theorem lighten_channels_eval (c0 c1 c2 c3 c4 c5 : Char) (v0 v1 v2 v3 v4 v5 : ℕ)
    (amount : ℚ)
    (h0 : hexVal c0 = some v0) (h1 : hexVal c1 = some v1) (h2 : hexVal c2 = some v2)
    (h3 : hexVal c3 = some v3) (h4 : hexVal c4 = some v4) (h5 : hexVal c5 = some v5)
    (hne0 : c0 ≠ '#') :
    lighten ('#' :: c0 :: [c1, c2, c3, c4, c5]) amount =
      some ('#' ::
        (pyHex02 (lightenChannels (v0 * 16 + v1) (v2 * 16 + v3) (v4 * 16 + v5) amount).1 ++
         pyHex02 (lightenChannels (v0 * 16 + v1) (v2 * 16 + v3) (v4 * 16 + v5) amount).2.1 ++
         pyHex02 (lightenChannels (v0 * 16 + v1) (v2 * 16 + v3) (v4 * 16 + v5) amount).2.2)) := by
  have hsh : strip_hash ('#' :: c0 :: [c1, c2, c3, c4, c5]) = c0 :: [c1, c2, c3, c4, c5] := by
    rw [strip_hash, List.dropWhile_cons, if_pos (by simp)]
    exact strip_hash_cons_of_ne hne0 _
  have hp0 : parseHexStr (slice2 (strip_hash ('#' :: c0 :: [c1, c2, c3, c4, c5])) 0) =
      some (v0 * 16 + v1) := by
    rw [hsh, show slice2 (c0 :: [c1, c2, c3, c4, c5]) 0 = [c0, c1] from rfl]
    exact parseHexStr_pair h0 h1
  have hp2 : parseHexStr (slice2 (strip_hash ('#' :: c0 :: [c1, c2, c3, c4, c5])) 2) =
      some (v2 * 16 + v3) := by
    rw [hsh, show slice2 (c0 :: [c1, c2, c3, c4, c5]) 2 = [c2, c3] from rfl]
    exact parseHexStr_pair h2 h3
  have hp4 : parseHexStr (slice2 (strip_hash ('#' :: c0 :: [c1, c2, c3, c4, c5])) 4) =
      some (v4 * 16 + v5) := by
    rw [hsh, show slice2 (c0 :: [c1, c2, c3, c4, c5]) 4 = [c4, c5] from rfl]
    exact parseHexStr_pair h4 h5
  simp only [lighten, lightenChannels, hp0, hp2, hp4]

theorem lighten_zero_lower {raw c : Str} (h : validate raw = some c) :
    lighten c 0 = some (c.map Char.toLower) := by
  obtain ⟨ds, rfl, hlen, hfacts⟩ := validate_digit_facts h
  obtain ⟨c0, c1, c2, c3, c4, c5, rfl⟩ := exists_six hlen
  obtain ⟨v0, hlt0, hv0, hlo0, hhx0, hne0⟩ := hfacts c0 (by simp)
  obtain ⟨v1, hlt1, hv1, hlo1, hhx1, hne1⟩ := hfacts c1 (by simp)
  obtain ⟨v2, hlt2, hv2, hlo2, hhx2, hne2⟩ := hfacts c2 (by simp)
  obtain ⟨v3, hlt3, hv3, hlo3, hhx3, hne3⟩ := hfacts c3 (by simp)
  obtain ⟨v4, hlt4, hv4, hlo4, hhx4, hne4⟩ := hfacts c4 (by simp)
  obtain ⟨v5, hlt5, hv5, hlo5, hhx5, hne5⟩ := hfacts c5 (by simp)
  rw [lighten_channels_eval c0 c1 c2 c3 c4 c5 v0 v1 v2 v3 v4 v5 0 hv0 hv1 hv2 hv3 hv4 hv5 hne0]
  rw [lightenChannels_zero _ _ _ (by omega) (by omega) (by omega)]
  dsimp only
  rw [pyHex02_byte v0 v1 hlt0 hlt1, pyHex02_byte v2 v3 hlt2 hlt3, pyHex02_byte v4 v5 hlt4 hlt5]
  simp only [List.map_cons, List.map_nil]
  rw [show Char.toLower '#' = '#' from by decide, hlo0, hlo1, hlo2, hlo3, hlo4, hlo5]
  rfl

/-- C7 counterexample: for the validated color `#AABBCC`, `lighten` at amount
zero reproduces every channel exactly (no rounding is involved in the exact
rational model), but re-encodes with lowercase hex digits: the result is
`#aabbcc`, not `#AABBCC`. -/
theorem claim_C7_lighten_zero_cex :
    validate (("#AABBCC").toList) = some (("#AABBCC").toList) ∧
    lighten (("#AABBCC").toList) 0 = some (("#aabbcc").toList) ∧
    (("#aabbcc").toList) ≠ (("#AABBCC").toList) := by
  have hv : validate (("#AABBCC").toList) = some (("#AABBCC").toList) := by decide
  refine ⟨hv, ?_, by decide⟩
  rw [lighten_zero_lower hv]
  decide

/-- C7 (amended): for every validated canonical color `c`,
`lighten(c, 0.0)` equals `c` with its hex digits lower-cased (exact equality
of every channel under exact rational arithmetic; the only change is the
letter case of the re-encoding). -/
theorem claim_C7_lighten_zero (raw c : Str) (h : validate raw = some c) :
    lighten c 0 = some (c.map Char.toLower) :=
  lighten_zero_lower h

/-- Witness for C7 at the validated color `#AABBCC`. -/
theorem claim_C7_lighten_zero_witness :
    validate (("#AABBCC").toList) = some (("#AABBCC").toList) ∧
    lighten (("#AABBCC").toList) 0 = some ((("#AABBCC").toList).map Char.toLower) :=
  ⟨by decide, claim_C7_lighten_zero (("#AABBCC").toList) (("#AABBCC").toList) (by decide)⟩

theorem rgb_to_hls_zero : rgb_to_hls 0 0 0 = (0, 0, 0) := by
  simp [rgb_to_hls]

theorem pyInt_459 : pyInt ((459:ℚ)/10) = 45 := by
  unfold pyInt
  rw [if_neg (by norm_num), ratFloor_eq_intFloor]
  norm_num

theorem pyHex02_45 : pyHex02 (45:ℤ) = [hexDigitLower 2, hexDigitLower 13] := by
  rw [show (45:ℤ) = ((2 * 16 + 13 : ℕ) : ℤ) by norm_num]
  exact pyHex02_byte 2 13 (by norm_num) (by norm_num)

theorem lighten_black : lighten (("#000000").toList) (18/100) = some (("#2d2d2d").toList) := by
  have hp0 : parseHexStr (slice2 (strip_hash (("#000000").toList)) 0) = some 0 := by decide
  have hp2 : parseHexStr (slice2 (strip_hash (("#000000").toList)) 2) = some 0 := by decide
  have hp4 : parseHexStr (slice2 (strip_hash (("#000000").toList)) 4) = some 0 := by decide
  simp only [lighten, hp0, hp2, hp4]
  simp only [Nat.cast_zero, zero_div]
  rw [rgb_to_hls_zero]
  dsimp only
  rw [show (0:ℚ) + 18/100 = 18/100 by norm_num,
    min_eq_right (by norm_num : (18:ℚ)/100 ≤ 1)]
  rw [show hls_to_rgb 0 ((18:ℚ)/100) 0 = (18/100, 18/100, 18/100) from by simp [hls_to_rgb]]
  dsimp only
  rw [show (18:ℚ)/100 * 255 = 459/10 by norm_num, pyInt_459, pyHex02_45]
  decide

theorem lightenClaimed_black :
    lightenClaimed (("#000000").toList) (18/100) = some (("#2E2E2E").toList) := by
  have hp0 : parseHexStr (slice2 (strip_hash (("#000000").toList)) 0) = some 0 := by decide
  have hp2 : parseHexStr (slice2 (strip_hash (("#000000").toList)) 2) = some 0 := by decide
  have hp4 : parseHexStr (slice2 (strip_hash (("#000000").toList)) 4) = some 0 := by decide
  simp only [lightenClaimed, hp0, hp2, hp4]
  simp only [Nat.cast_zero, zero_div]
  rw [rgb_to_hls_zero]
  dsimp only
  rw [show (0:ℚ) + 18/100 = 18/100 by norm_num,
    min_eq_right (by norm_num : (18:ℚ)/100 ≤ 1)]
  rw [show hls_to_rgb 0 ((18:ℚ)/100) 0 = (18/100, 18/100, 18/100) from by simp [hls_to_rgb]]
  dsimp only
  rw [show (18:ℚ)/100 * 255 = 459/10 by norm_num]
  rw [show round ((459:ℚ)/10) = 46 from by rw [round_eq]; norm_num]
  rw [show clamp255 46 = 46 from by unfold clamp255; norm_num]
  decide

/-- C3 counterexample: at the valid canonical color `#000000` and amount
`0.18`, the code truncates `45.9` to `45` and formats lowercase, producing
`#2d2d2d`; the claimed round-to-nearest, canonical-uppercase behaviour would
produce `#2E2E2E`. -/
theorem claim_C3_lighten_pipeline_cex :
    validate (("#000000").toList) = some (("#000000").toList) ∧
    lighten (("#000000").toList) (18/100) = some (("#2d2d2d").toList) ∧
    lightenClaimed (("#000000").toList) (18/100) = some (("#2E2E2E").toList) ∧
    lighten (("#000000").toList) (18/100) ≠ lightenClaimed (("#000000").toList) (18/100) := by
  refine ⟨by decide, lighten_black, lightenClaimed_black, ?_⟩
  rw [lighten_black, lightenClaimed_black]
  decide

/-- C3 (amended): for every valid canonical hex color and every amount,
`lighten` parses the three channel bytes, converts the RGB triple to HLS,
increases lightness by the amount clamped to a maximum of 1.0, converts back
to RGB, truncates each scaled channel toward zero (Python `int`), and
returns `#` followed by the three channels formatted as two lowercase hex
digits each (`%02x`) — truncation and lowercase, not round-to-nearest and
canonical uppercase. -/
theorem claim_C3_lighten_pipeline (raw c : Str) (amount : ℚ)
    (h : validate raw = some c) :
    ∃ r g b : ℕ, parseHexStr (slice2 (strip_hash c) 0) = some r ∧
      parseHexStr (slice2 (strip_hash c) 2) = some g ∧
      parseHexStr (slice2 (strip_hash c) 4) = some b ∧
      r ≤ 255 ∧ g ≤ 255 ∧ b ≤ 255 ∧
      lighten c amount = some ('#' ::
        (pyHex02 (lightenChannels r g b amount).1 ++
         pyHex02 (lightenChannels r g b amount).2.1 ++
         pyHex02 (lightenChannels r g b amount).2.2)) := by
  obtain ⟨ds, rfl, hlen, hfacts⟩ := validate_digit_facts h
  obtain ⟨c0, c1, c2, c3, c4, c5, rfl⟩ := exists_six hlen
  obtain ⟨v0, hlt0, hv0, hlo0, hhx0, hne0⟩ := hfacts c0 (by simp)
  obtain ⟨v1, hlt1, hv1, hlo1, hhx1, hne1⟩ := hfacts c1 (by simp)
  obtain ⟨v2, hlt2, hv2, hlo2, hhx2, hne2⟩ := hfacts c2 (by simp)
  obtain ⟨v3, hlt3, hv3, hlo3, hhx3, hne3⟩ := hfacts c3 (by simp)
  obtain ⟨v4, hlt4, hv4, hlo4, hhx4, hne4⟩ := hfacts c4 (by simp)
  obtain ⟨v5, hlt5, hv5, hlo5, hhx5, hne5⟩ := hfacts c5 (by simp)
  have hsh : strip_hash ('#' :: c0 :: [c1, c2, c3, c4, c5]) = c0 :: [c1, c2, c3, c4, c5] := by
    rw [strip_hash, List.dropWhile_cons, if_pos (by simp)]
    exact strip_hash_cons_of_ne hne0 _
  refine ⟨v0 * 16 + v1, v2 * 16 + v3, v4 * 16 + v5, ?_, ?_, ?_,
    by omega, by omega, by omega,
    lighten_channels_eval c0 c1 c2 c3 c4 c5 v0 v1 v2 v3 v4 v5 amount
      hv0 hv1 hv2 hv3 hv4 hv5 hne0⟩
  · rw [hsh, show slice2 (c0 :: [c1, c2, c3, c4, c5]) 0 = [c0, c1] from rfl]
    exact parseHexStr_pair hv0 hv1
  · rw [hsh, show slice2 (c0 :: [c1, c2, c3, c4, c5]) 2 = [c2, c3] from rfl]
    exact parseHexStr_pair hv2 hv3
  · rw [hsh, show slice2 (c0 :: [c1, c2, c3, c4, c5]) 4 = [c4, c5] from rfl]
    exact parseHexStr_pair hv4 hv5

/-- Witness for C3 at `#000000` and amount `0.18`. -/
theorem claim_C3_lighten_pipeline_witness :
    validate (("#000000").toList) = some (("#000000").toList) ∧
    ∃ r g b : ℕ,
      parseHexStr (slice2 (strip_hash (("#000000").toList)) 0) = some r ∧
      parseHexStr (slice2 (strip_hash (("#000000").toList)) 2) = some g ∧
      parseHexStr (slice2 (strip_hash (("#000000").toList)) 4) = some b ∧
      r ≤ 255 ∧ g ≤ 255 ∧ b ≤ 255 ∧
      lighten (("#000000").toList) (18/100) = some ('#' ::
        (pyHex02 (lightenChannels r g b (18/100)).1 ++
         pyHex02 (lightenChannels r g b (18/100)).2.1 ++
         pyHex02 (lightenChannels r g b (18/100)).2.2)) :=
  ⟨by decide, claim_C3_lighten_pipeline (("#000000").toList) (("#000000").toList)
    (18/100) (by decide)⟩
